import Mathlib

/-!
Verification of the Huffman coder in src/huffman.cpp against its
natural-language specification.

The embedding is a direct transcription of the C++ source:
a std::unique_ptr chain of Node objects becomes the inductive type
Node with a nil constructor for the null pointer, the two
unordered_map members become association lists, the min priority
queue becomes a list kept sorted by ascending frequency, and each
throwing member function returns an Except or pairs the new object
state with the exception raised.  Bytes are modelled as naturals and
the bit-symbol strings handled by encode and decode as lists of
characters, as in the source, where any character other than 0 and 1
must be rejected by decode.
-/

namespace HuffmanSpec

/-- A byte value from the input alphabet. -/
abbrev Sym := Nat

/-- Model of struct Node together with the owning unique_ptr: nil is the
null pointer, and mk carries the character, frequency and child fields. -/
inductive Node where
  | nil : Node
  | mk (character : Sym) (frequency : Nat) (left : Node) (right : Node) : Node
deriving DecidableEq

/-- The error kinds of the specification, one per exception thrown in
src/huffman.cpp. -/
inductive HuffErr where
  | emptyInputError : HuffErr
  | notBuiltError : HuffErr
  | unknownSymbolError (c : Sym) : HuffErr
  | invalidBitError : HuffErr
  | traversalError : HuffErr
  | incompleteSequenceError : HuffErr
deriving DecidableEq

deriving instance DecidableEq for Except

/-- The character field of a node (the internal-node constructor stores the
zero byte, as Node(int, ...) stores the character 0). -/
def Node.char : Node → Sym
  | Node.nil => 0
  | Node.mk c _ _ _ => c

/-- The frequency field of a node. -/
def Node.freq : Node → Nat
  | Node.nil => 0
  | Node.mk _ f _ _ => f

/-- The left child pointer. -/
def Node.left : Node → Node
  | Node.nil => Node.nil
  | Node.mk _ _ l _ => l

/-- The right child pointer. -/
def Node.right : Node → Node
  | Node.nil => Node.nil
  | Node.mk _ _ _ r => r

/-- Node::isLeaf: left == nullptr && right == nullptr.  The source only ever
calls it on non-null nodes; on nil it is never relied upon. -/
def Node.isLeaf : Node → Bool
  | Node.nil => false
  | Node.mk _ _ l r => l == Node.nil && r == Node.nil

/-- One ++frequencies_[ch] step of calculateFrequencies: bump the count of
ch in the table, inserting it with count 1 on its first occurrence. -/
def bump : List (Sym × Nat) → Sym → List (Sym × Nat)
  | [], c => [(c, 1)]
  | (k, v) :: rest, c => if k = c then (k, v + 1) :: rest else (k, v) :: bump rest c

/-- HuffmanTree::calculateFrequencies: count the occurrences of every byte
of the text.  The unordered_map iteration order is unspecified in C++; the
model fixes first-occurrence order. -/
def calculateFrequencies (text : List Sym) : List (Sym × Nat) :=
  text.foldl bump []

/-- Push onto the frequency min-priority queue, modelled as a list kept
sorted by ascending frequency.  The C++ heap's tie order is unspecified;
the model inserts after existing equal-frequency entries. -/
def pqInsert (t : Node) (l : List Node) : List Node :=
  List.orderedInsert (fun x y => x.freq < y.freq) t l

/-- Fuelled form of the merge loop of HuffmanTree::buildTree.  Each round
shortens the queue by one, so any fuel of at least the queue length minus
one makes the zero-fuel arm unreachable; mergeLoopAux_congr below shows the
result does not depend on such a fuel. -/
def mergeLoopAux : Nat → List Node → Node
  | _, [] => Node.nil
  | _, [t] => t
  | 0, t :: _ :: _ => t
  | n + 1, a :: b :: rest => mergeLoopAux n (pqInsert (Node.mk 0 (a.freq + b.freq) a b) rest)

/-- The merge loop of HuffmanTree::buildTree: extract the two
lowest-frequency nodes, combine them under a fresh internal node carrying
the summed frequency, reinsert, and repeat until one node remains. -/
def mergeLoop (l : List Node) : Node :=
  mergeLoopAux l.length l

/-- HuffmanTree::generateCodes: accumulate 0 going left and 1 going right;
at a leaf record the accumulated code, or the one-bit code 0 when the
accumulator is empty (single-character case). -/
def generateCodes : Node → List Char → List (Sym × List Char)
  | Node.nil, _ => []
  | Node.mk c f l r, code =>
    if (Node.mk c f l r).isLeaf then
      [(c, if code = [] then ['0'] else code)]
    else
      generateCodes l (code ++ ['0']) ++ generateCodes r (code ++ ['1'])

/-- The Coder state: the three members of class HuffmanTree. -/
structure HuffmanTree where
  root_ : Node
  frequencies_ : List (Sym × Nat)
  huffmanCodes_ : List (Sym × List Char)
deriving DecidableEq

/-- A default-constructed HuffmanTree: no tree built yet. -/
def HuffmanTree.unbuilt : HuffmanTree :=
  { root_ := Node.nil, frequencies_ := [], huffmanCodes_ := [] }

/-- The leaf-creation loop of HuffmanTree::buildTree: push one leaf per
frequency-table entry onto the priority queue. -/
def pqList (freqs : List (Sym × Nat)) : List Node :=
  freqs.foldl (fun q p => pqInsert (Node.mk p.1 p.2 Node.nil Node.nil) q) []

/-- HuffmanTree::buildTree as a state transformer: it returns the new object
state together with the exception raised, if any.  The empty-input check
precedes every mutation, so on that failure the state is returned intact. -/
def buildTree (st : HuffmanTree) (text : List Sym) : HuffmanTree × Option HuffErr :=
  if text = [] then (st, some HuffErr.emptyInputError)
  else
    let freqs := calculateFrequencies text
    let pq := pqList freqs
    let root :=
      if pq.length = 1 then
        Node.mk 0 (pq.headD Node.nil).freq (pq.headD Node.nil) Node.nil
      else mergeLoop pq
    ({ root_ := root, frequencies_ := freqs, huffmanCodes_ := generateCodes root [] }, none)

/-- Lookup in an association-list model of unordered_map::find. -/
def mapLookup {A : Type} : List (Sym × A) → Sym → Option A
  | [], _ => none
  | (k, v) :: rest, c => if k = c then some v else mapLookup rest c

/-- The pre-pass loop of HuffmanTree::encode: add up the code lengths and
throw at the first byte that has no entry in the code table. -/
def computeTotalSize (codes : List (Sym × List Char)) : List Sym → Except HuffErr Nat
  | [] => Except.ok 0
  | c :: cs =>
    match mapLookup codes c with
    | none => Except.error (HuffErr.unknownSymbolError c)
    | some w => Except.map (fun n => w.length + n) (computeTotalSize codes cs)

/-- HuffmanTree::encode: after the pre-pass has succeeded every lookup of the
concatenation loop hits an entry, so the at() call never throws and the
getD default is never taken. -/
def encode (st : HuffmanTree) (text : List Sym) : Except HuffErr (List Char) :=
  if st.root_ = Node.nil then Except.error HuffErr.notBuiltError
  else
    match computeTotalSize st.huffmanCodes_ text with
    | Except.error e => Except.error e
    | Except.ok _ =>
      Except.ok (text.foldr (fun c acc => (mapLookup st.huffmanCodes_ c).getD [] ++ acc) [])

/-- The single-character-tree branch of HuffmanTree::decode: every bit must
be 0 and each decodes to the single stored symbol. -/
def decodeSingle (c : Sym) : List Char → Except HuffErr (List Sym)
  | [] => Except.ok []
  | b :: bs =>
    if b = '0' then Except.map (fun d => c :: d) (decodeSingle c bs)
    else Except.error HuffErr.invalidBitError

/-- The bit-walk loop of HuffmanTree::decode: descend left on 0 and right on
1, guard against walking off the tree, and at each leaf append its symbol
and reset the walk to the root.  Returns the final walk position and the
accumulated output. -/
def decodeLoop (root : Node) : List Char → Node → List Sym → Except HuffErr (Node × List Sym)
  | [], cur, acc => Except.ok (cur, acc)
  | b :: bs, cur, acc =>
    if b = '0' ∨ b = '1' then
      let next := if b = '0' then cur.left else cur.right
      if next = Node.nil then Except.error HuffErr.traversalError
      else if next.isLeaf then decodeLoop root bs root (acc ++ [next.char])
      else decodeLoop root bs next acc
    else Except.error HuffErr.invalidBitError

/-- HuffmanTree::decode.  The final walk position is compared with the root
structurally; a proper subtree is never structurally equal to the whole
tree, so this agrees with the pointer comparison current != root_.get(). -/
def decode (st : HuffmanTree) (bits : List Char) : Except HuffErr (List Sym) :=
  if st.root_ = Node.nil then Except.error HuffErr.notBuiltError
  else if st.root_.left ≠ Node.nil ∧ st.root_.left.isLeaf ∧ st.root_.right = Node.nil then
    decodeSingle st.root_.left.char bits
  else
    match decodeLoop st.root_ bits st.root_ [] with
    | Except.error e => Except.error e
    | Except.ok (cur, acc) =>
      if cur = st.root_ then Except.ok acc else Except.error HuffErr.incompleteSequenceError

/-- Number of tree nodes owned through a pointer. -/
def countNodes : Node → Nat
  | Node.nil => 0
  | Node.mk _ _ l r => 1 + countNodes l + countNodes r

/-- Every non-leaf node reachable through this pointer has exactly two
children (the strict-binary-tree shape claimed by the specification). -/
def strictBinary : Node → Bool
  | Node.nil => true
  | Node.mk _ _ l r =>
    (l == Node.nil && r == Node.nil) ||
    (!(l == Node.nil) && !(r == Node.nil) && strictBinary l && strictBinary r)

/-- Every internal node's frequency field is the sum of its children's
frequency fields, as established by the merge loop. -/
def consistent : Node → Bool
  | Node.nil => true
  | Node.mk _ f l r =>
    if l == Node.nil && r == Node.nil then true
    else (f == l.freq + r.freq) && consistent l && consistent r

/-- The leaves under a subtree, each with its frequency field and its
root-to-leaf path (0 for a left branch, 1 for a right branch). -/
def pathsF : Node → List ((Sym × Nat) × List Char)
  | Node.nil => []
  | Node.mk c f l r =>
    if l == Node.nil && r == Node.nil then [((c, f), [])]
    else
      (pathsF l).map (fun e => (e.1, '0' :: e.2)) ++
        (pathsF r).map (fun e => (e.1, '1' :: e.2))

/-- The weighted path length of a tree: each combination step contributes
the frequencies of the two combined subtrees, so for a consistent tree this
is the sum over its leaves of frequency times depth. -/
def cost : Node → Nat
  | Node.nil => 0
  | Node.mk _ _ l r => cost l + cost r + l.freq + r.freq

/-- A code is a proper prefix of another when it is a prefix and the two
are different. -/
def properPrefixOf (u v : List Char) : Prop :=
  u <+: v ∧ u ≠ v

/-- A codeword assignment over the binary alphabet is prefix-free on a set
of symbols when no symbol's codeword is a prefix of a different symbol's
codeword (in particular, distinct symbols get distinct codewords). -/
def PrefixFreeOn (keys : List Sym) (cw : Sym → List Bool) : Prop :=
  ∀ a ∈ keys, ∀ b ∈ keys, a ≠ b → ¬ cw a <+: cw b

/-- The weighted total code length of a built Coder: the sum, over the
distinct symbols of its frequency table, of frequency times stored code
length. -/
def weightedLength (st : HuffmanTree) : Nat :=
  (st.frequencies_.map (fun p => p.2 * ((mapLookup st.huffmanCodes_ p.1).getD []).length)).sum

/-- The weighted total length of an arbitrary competitor codeword
assignment over the same frequency table. -/
def weightedLengthCW (st : HuffmanTree) (cw : Sym → List Bool) : Nat :=
  (st.frequencies_.map (fun p => p.2 * (cw p.1).length)).sum

/-- Kraft sum of a multiset of codeword lengths. -/
def kraftSum (L : Multiset Nat) : ℚ :=
  (L.map (fun l => ((1 : ℚ) / 2) ^ l)).sum

/-- The tails of the codewords of a list that start with the bit 0. -/
def tails0 (L : List (List Bool)) : List (List Bool) :=
  L.filterMap (fun u => match u with | false :: us => some us | _ => none)

/-- The tails of the codewords of a list that start with the bit 1. -/
def tails1 (L : List (List Bool)) : List (List Bool) :=
  L.filterMap (fun u => match u with | true :: us => some us | _ => none)

/-- All trees the priority-queue merge loop can produce from a forest,
abstracting over the unspecified tie order of the C++ heap: each step
combines two minimum-frequency members of the forest under a fresh
internal node whose frequency is their sum. -/
inductive Huff : Multiset Node → Node → Prop where
  | single (t : Node) : Huff {t} t
  | step (a b : Node) (F : Multiset Node) (t : Node)
      (ha : ∀ c ∈ b ::ₘ F, a.freq ≤ c.freq)
      (hb : ∀ c ∈ F, b.freq ≤ c.freq)
      (ih : Huff (Node.mk 0 (a.freq + b.freq) a b ::ₘ F) t) :
      Huff (a ::ₘ b ::ₘ F) t

/-- The leaves of a tree with their frequency fields, in traversal order. -/
def leafList (t : Node) : List (Sym × Nat) :=
  (pathsF t).map Prod.fst

@[simp] theorem Node.char_mk (c f l r) : (Node.mk c f l r).char = c := rfl

@[simp] theorem Node.freq_mk (c f l r) : (Node.mk c f l r).freq = f := rfl

@[simp] theorem Node.left_mk (c f l r) : (Node.mk c f l r).left = l := rfl

@[simp] theorem Node.right_mk (c f l r) : (Node.mk c f l r).right = r := rfl

@[simp] theorem Node.isLeaf_mk (c f l r) :
    (Node.mk c f l r).isLeaf = (l == Node.nil && r == Node.nil) := rfl

@[simp] theorem Node.isLeaf_nil : Node.nil.isLeaf = false := rfl

@[simp] theorem exceptMap_error {A B : Type} (f : A → B) (e : HuffErr) :
    Except.map f (Except.error e : Except HuffErr A) = Except.error e := rfl

@[simp] theorem exceptMap_ok {A B : Type} (f : A → B) (a : A) :
    Except.map f (Except.ok a : Except HuffErr A) = Except.ok (f a) := rfl

theorem sum_bump (l : List (Sym × Nat)) (c : Sym) :
    ((bump l c).map Prod.snd).sum = (l.map Prod.snd).sum + 1 := by
  induction l with
  | nil => simp [bump]
  | cons p rest ih =>
    obtain ⟨k, v⟩ := p
    by_cases h : k = c <;> simp [bump, h, ih] <;> ring

theorem mapLookup_bump_self (l : List (Sym × Nat)) (c : Sym) :
    mapLookup (bump l c) c = some ((mapLookup l c).getD 0 + 1) := by
  induction l with
  | nil => simp [bump, mapLookup]
  | cons p rest ih =>
    obtain ⟨k, v⟩ := p
    by_cases h : k = c
    · simp [bump, h, mapLookup]
    · simp [bump, h, mapLookup, ih]

theorem mapLookup_bump_ne (l : List (Sym × Nat)) (c k : Sym) (h : k ≠ c) :
    mapLookup (bump l c) k = mapLookup l k := by
  induction l with
  | nil => simp [bump, mapLookup, Ne.symm h]
  | cons p rest ih =>
    obtain ⟨k2, v⟩ := p
    by_cases h2 : k2 = c
    · subst h2
      simp [bump, mapLookup, Ne.symm h]
    · by_cases h3 : k2 = k <;> simp [bump, mapLookup, h2, h3, h, ih]

theorem calc_sum_aux :
    ∀ (text : List Sym) (acc : List (Sym × Nat)),
      ((text.foldl bump acc).map Prod.snd).sum = (acc.map Prod.snd).sum + text.length := by
  intro text
  induction text with
  | nil => simp
  | cons c cs ih =>
    intro acc
    simp only [List.foldl_cons, ih (bump acc c), sum_bump, List.length_cons]
    ring

theorem calc_getD_aux :
    ∀ (text : List Sym) (acc : List (Sym × Nat)) (k : Sym),
      (mapLookup (text.foldl bump acc) k).getD 0 =
        (mapLookup acc k).getD 0 + text.count k := by
  intro text
  induction text with
  | nil => simp
  | cons c cs ih =>
    intro acc k
    by_cases h : k = c
    · subst h
      simp [List.count_cons, ih (bump acc k), mapLookup_bump_self]
      ring
    · simp [List.count_cons, ih (bump acc c), mapLookup_bump_ne acc c k h, h]

theorem calc_isSome_aux :
    ∀ (text : List Sym) (acc : List (Sym × Nat)) (k : Sym),
      (mapLookup (text.foldl bump acc) k).isSome = true ↔
        ((mapLookup acc k).isSome = true ∨ k ∈ text) := by
  intro text
  induction text with
  | nil => simp
  | cons c cs ih =>
    intro acc k
    by_cases h : k = c
    · subst h
      simp only [List.foldl_cons, ih (bump acc k)]
      simp [mapLookup_bump_self]
    · simp only [List.foldl_cons, ih (bump acc c)]
      simp [mapLookup_bump_ne acc c k h, h]

theorem sum_calculateFrequencies (text : List Sym) :
    ((calculateFrequencies text).map Prod.snd).sum = text.length := by
  simpa [calculateFrequencies, mapLookup] using calc_sum_aux text []

theorem mapLookup_calculateFrequencies (text : List Sym) (k : Sym) (hk : k ∈ text) :
    mapLookup (calculateFrequencies text) k = some (text.count k) := by
  have hs : (mapLookup (calculateFrequencies text) k).isSome = true := by
    rw [calculateFrequencies, calc_isSome_aux text [] k]
    exact Or.inr hk
  obtain ⟨n, hn⟩ := Option.isSome_iff_exists.mp hs
  have hd := calc_getD_aux text [] k
  rw [← calculateFrequencies] at hd
  rw [hn] at hd
  simp [mapLookup] at hd
  rw [hn, hd]

theorem buildTree_fst_frequencies (st : HuffmanTree) (text : List Sym) (h : text ≠ []) :
    (buildTree st text).1.frequencies_ = calculateFrequencies text := by
  simp [buildTree, h]

/-- C7: after every successful build, the counts of the frequency table sum
to the length of the text, and every distinct byte of the text is mapped to
its exact occurrence count. -/
theorem claim_c7_frequency_conservation (st : HuffmanTree) (text : List Sym) (h : text ≠ []) :
    ((buildTree st text).1.frequencies_.map Prod.snd).sum = text.length ∧
      ∀ s ∈ text, mapLookup (buildTree st text).1.frequencies_ s = some (text.count s) := by
  rw [buildTree_fst_frequencies st text h]
  exact ⟨sum_calculateFrequencies text,
    fun s hs => mapLookup_calculateFrequencies text s hs⟩

theorem claim_c7_witness :
    ((buildTree HuffmanTree.unbuilt [97, 97, 98]).1.frequencies_.map Prod.snd).sum =
        ([97, 97, 98] : List Sym).length ∧
      ∀ s ∈ ([97, 97, 98] : List Sym),
        mapLookup (buildTree HuffmanTree.unbuilt [97, 97, 98]).1.frequencies_ s =
          some (List.count s [97, 97, 98]) :=
  claim_c7_frequency_conservation HuffmanTree.unbuilt [97, 97, 98] (by decide)

/-- C8: buildTree raises the empty-input error exactly on empty input, and
on that failure the stored state is returned unchanged. -/
theorem claim_c8_empty_input (st : HuffmanTree) (text : List Sym) :
    ((buildTree st text).2 = some HuffErr.emptyInputError ↔ text = []) ∧
      (text = [] → (buildTree st text).1 = st) := by
  by_cases h : text = [] <;> simp [buildTree, h]

theorem claim_c8_witness :
    (((buildTree HuffmanTree.unbuilt ([] : List Sym)).2 = some HuffErr.emptyInputError ↔
        ([] : List Sym) = []) ∧
      (([] : List Sym) = [] → (buildTree HuffmanTree.unbuilt ([] : List Sym)).1 =
        HuffmanTree.unbuilt)) ∧
    (((buildTree HuffmanTree.unbuilt [97]).2 = some HuffErr.emptyInputError ↔
        ([97] : List Sym) = []) ∧
      (([97] : List Sym) = [] → (buildTree HuffmanTree.unbuilt [97]).1 =
        HuffmanTree.unbuilt)) :=
  ⟨claim_c8_empty_input HuffmanTree.unbuilt [],
    claim_c8_empty_input HuffmanTree.unbuilt [97]⟩

@[simp] theorem mk_beq_nil (c f l r) : (Node.mk c f l r == Node.nil) = false := by
  rw [beq_eq_false_iff_ne]
  exact fun h => Node.noConfusion h

@[simp] theorem nil_beq_nil : (Node.nil == Node.nil) = true := by
  simp

theorem computeTotalSize_error_of_missing (codes : List (Sym × List Char)) :
    ∀ text : List Sym, (∃ c ∈ text, mapLookup codes c = none) →
      ∃ c ∈ text, mapLookup codes c = none ∧
        computeTotalSize codes text = Except.error (HuffErr.unknownSymbolError c) := by
  intro text
  induction text with
  | nil => simp
  | cons c cs ih =>
    intro h
    cases hc : mapLookup codes c with
    | none =>
      exact ⟨c, by simp, hc, by simp [computeTotalSize, hc]⟩
    | some w =>
      have hcs : ∃ c2 ∈ cs, mapLookup codes c2 = none := by
        obtain ⟨c2, hmem, hnone⟩ := h
        rcases List.mem_cons.mp hmem with rfl | h2
        · rw [hc] at hnone
          cases hnone
        · exact ⟨c2, h2, hnone⟩
      obtain ⟨c2, hmem, hnone, heq⟩ := ih hcs
      exact ⟨c2, List.mem_cons_of_mem _ hmem, hnone, by simp [computeTotalSize, hc, heq]⟩

theorem computeTotalSize_ok_of_present (codes : List (Sym × List Char)) :
    ∀ text : List Sym, (∀ c ∈ text, (mapLookup codes c).isSome = true) →
      ∃ n, computeTotalSize codes text = Except.ok n := by
  intro text
  induction text with
  | nil => exact fun _ => ⟨0, rfl⟩
  | cons c cs ih =>
    intro h
    obtain ⟨w, hw⟩ := Option.isSome_iff_exists.mp (h c (by simp))
    obtain ⟨n, hn⟩ := ih fun c2 h2 => h c2 (List.mem_cons_of_mem _ h2)
    exact ⟨w.length + n, by simp [computeTotalSize, hw, hn]⟩

/-- C9: on a built Coder, encode fails with the unknown-symbol error naming
an offending byte exactly when some byte of the text has no entry in the
code table, and otherwise returns the concatenation, in input order, of
each byte's code (so an empty text yields the empty result). -/
theorem claim_c9_encode_unknown_symbol (st : HuffmanTree) (text : List Sym)
    (hroot : st.root_ ≠ Node.nil) :
    ((∃ c ∈ text, mapLookup st.huffmanCodes_ c = none) →
      ∃ c ∈ text, mapLookup st.huffmanCodes_ c = none ∧
        encode st text = Except.error (HuffErr.unknownSymbolError c)) ∧
    ((∀ c ∈ text, (mapLookup st.huffmanCodes_ c).isSome = true) →
      encode st text =
        Except.ok (text.foldr (fun c acc => (mapLookup st.huffmanCodes_ c).getD [] ++ acc) [])) := by
  constructor
  · intro h
    obtain ⟨c, hmem, hnone, heq⟩ := computeTotalSize_error_of_missing st.huffmanCodes_ text h
    exact ⟨c, hmem, hnone, by simp [encode, hroot, heq]⟩
  · intro h
    obtain ⟨n, hn⟩ := computeTotalSize_ok_of_present st.huffmanCodes_ text h
    simp [encode, hroot, hn]

theorem claim_c9_witness :
    (∃ c ∈ ([97, 99] : List Sym),
        mapLookup (buildTree HuffmanTree.unbuilt [97, 98]).1.huffmanCodes_ c = none ∧
          encode (buildTree HuffmanTree.unbuilt [97, 98]).1 [97, 99] =
            Except.error (HuffErr.unknownSymbolError c)) ∧
      encode (buildTree HuffmanTree.unbuilt [97, 98]).1 [97, 98] =
        Except.ok (([97, 98] : List Sym).foldr
          (fun c acc =>
            (mapLookup (buildTree HuffmanTree.unbuilt [97, 98]).1.huffmanCodes_ c).getD [] ++ acc)
          []) :=
  ⟨(claim_c9_encode_unknown_symbol (buildTree HuffmanTree.unbuilt [97, 98]).1 [97, 99]
      (by decide)).1 (by decide),
    (claim_c9_encode_unknown_symbol (buildTree HuffmanTree.unbuilt [97, 98]).1 [97, 98]
      (by decide)).2 (by decide)⟩

theorem foldl_bump_replicate (s : Sym) :
    ∀ (n m : Nat), List.foldl bump [(s, m)] (List.replicate n s) = [(s, m + n)] := by
  intro n
  induction n with
  | zero => simp
  | succ k ih =>
    intro m
    have : bump [(s, m)] s = [(s, m + 1)] := by simp [bump]
    simp only [List.replicate_succ, List.foldl_cons, this, ih (m + 1)]
    ring_nf

theorem calculateFrequencies_replicate (s : Sym) (n : Nat) (h : 0 < n) :
    calculateFrequencies (List.replicate n s) = [(s, n)] := by
  cases n with
  | zero => omega
  | succ k =>
    simp only [calculateFrequencies, List.replicate_succ, List.foldl_cons]
    have hb : bump [] s = [(s, 1)] := rfl
    rw [hb, foldl_bump_replicate s k 1, Nat.add_comm]

theorem buildTree_replicate (st : HuffmanTree) (s : Sym) (n : Nat) (h : 0 < n) :
    (buildTree st (List.replicate n s)).1 =
      { root_ := Node.mk 0 n (Node.mk s n Node.nil Node.nil) Node.nil,
        frequencies_ := [(s, n)],
        huffmanCodes_ := [(s, ['0'])] } := by
  have hne : List.replicate n s ≠ [] := by
    simp [List.replicate_eq_nil_iff]
    omega
  simp only [buildTree, hne, if_neg, calculateFrequencies_replicate s n h]
  simp [pqList, pqInsert, generateCodes]

theorem computeTotalSize_single (s : Sym) :
    ∀ m, computeTotalSize [(s, ['0'])] (List.replicate m s) = Except.ok m := by
  intro m
  induction m with
  | zero => rfl
  | succ k ih =>
    simp [List.replicate_succ, computeTotalSize, mapLookup, ih]
    omega

theorem foldr_codes_single (s : Sym) :
    ∀ m, List.foldr (fun c acc => (mapLookup [(s, ['0'])] c).getD [] ++ acc) []
      (List.replicate m s) = List.replicate m '0' := by
  intro m
  induction m with
  | zero => rfl
  | succ k ih =>
    simp only [List.replicate_succ, List.foldr_cons, ih]
    simp [mapLookup, List.replicate_succ]

theorem decodeSingle_replicate (c : Sym) :
    ∀ m, decodeSingle c (List.replicate m '0') = Except.ok (List.replicate m c) := by
  intro m
  induction m with
  | zero => rfl
  | succ k ih => simp [List.replicate_succ, decodeSingle, ih]

theorem decodeSingle_error (c : Sym) :
    ∀ bits : List Char, (∃ b ∈ bits, b ≠ '0') →
      decodeSingle c bits = Except.error HuffErr.invalidBitError := by
  intro bits
  induction bits with
  | nil => simp
  | cons b bs ih =>
    intro h
    by_cases hb : b = '0'
    · have hbs : ∃ b2 ∈ bs, b2 ≠ '0' := by
        obtain ⟨b2, hmem, hne⟩ := h
        rcases List.mem_cons.mp hmem with rfl | h2
        · exact absurd hb hne
        · exact ⟨b2, h2, hne⟩
      simp [decodeSingle, hb, ih hbs]
    · simp [decodeSingle, hb]

/-- C4: building from a text of n copies of one symbol stores the code
table mapping that symbol to the one-bit code 0; encode of m occurrences of
the symbol yields m zero bits; decode of m zero bits yields m copies of the
symbol; and decode fails with the invalid-bit error whenever any input
character differs from 0. -/
theorem claim_c4_single_symbol (st : HuffmanTree) (s : Sym) (n : Nat) (hn : 0 < n) :
    (buildTree st (List.replicate n s)).1.huffmanCodes_ = [(s, ['0'])] ∧
    (∀ m, encode (buildTree st (List.replicate n s)).1 (List.replicate m s) =
      Except.ok (List.replicate m '0')) ∧
    (∀ m, decode (buildTree st (List.replicate n s)).1 (List.replicate m '0') =
      Except.ok (List.replicate m s)) ∧
    (∀ bits : List Char, (∃ b ∈ bits, b ≠ '0') →
      decode (buildTree st (List.replicate n s)).1 bits =
        Except.error HuffErr.invalidBitError) := by
  rw [buildTree_replicate st s n hn]
  refine ⟨rfl, fun m => ?_, fun m => ?_, fun bits h => ?_⟩
  · simp [encode, computeTotalSize_single s m, foldr_codes_single s m]
  · simp [decode, Node.isLeaf, decodeSingle_replicate]
  · simp [decode, Node.isLeaf, decodeSingle_error s bits h]

theorem claim_c4_witness :
    (buildTree HuffmanTree.unbuilt (List.replicate 4 97)).1.huffmanCodes_ = [(97, ['0'])] ∧
      encode (buildTree HuffmanTree.unbuilt (List.replicate 4 97)).1 (List.replicate 4 97) =
        Except.ok (List.replicate 4 '0') ∧
      decode (buildTree HuffmanTree.unbuilt (List.replicate 4 97)).1 (List.replicate 4 '0') =
        Except.ok (List.replicate 4 97) ∧
      decode (buildTree HuffmanTree.unbuilt (List.replicate 4 97)).1 ['0', '1'] =
        Except.error HuffErr.invalidBitError :=
  ⟨(claim_c4_single_symbol HuffmanTree.unbuilt 97 4 (by decide)).1,
    (claim_c4_single_symbol HuffmanTree.unbuilt 97 4 (by decide)).2.1 4,
    (claim_c4_single_symbol HuffmanTree.unbuilt 97 4 (by decide)).2.2.1 4,
    (claim_c4_single_symbol HuffmanTree.unbuilt 97 4 (by decide)).2.2.2 ['0', '1'] (by decide)⟩

theorem pqInsert_perm (t : Node) (l : List Node) : List.Perm (pqInsert t l) (t :: l) :=
  List.perm_orderedInsert _ t l

theorem pqInsert_coe (t : Node) (l : List Node) :
    (↑(pqInsert t l) : Multiset Node) = t ::ₘ ↑l := by
  rw [Multiset.cons_coe]
  exact Multiset.coe_eq_coe.mpr (pqInsert_perm t l)

theorem length_pqInsert (t : Node) (l : List Node) :
    (pqInsert t l).length = l.length + 1 :=
  List.orderedInsert_length _ l t

theorem pqInsert_sorted (t : Node) :
    ∀ l : List Node, l.Pairwise (fun a b => a.freq ≤ b.freq) →
      (pqInsert t l).Pairwise (fun a b => a.freq ≤ b.freq) := by
  intro l
  induction l with
  | nil => simp [pqInsert, List.orderedInsert]
  | cons u us ih =>
    intro h
    rw [List.pairwise_cons] at h
    obtain ⟨hu, hus⟩ := h
    rw [pqInsert, List.orderedInsert]
    by_cases hlt : t.freq < u.freq
    · rw [if_pos hlt]
      refine List.Pairwise.cons ?_ (List.Pairwise.cons hu hus)
      intro x hx
      rcases List.mem_cons.mp hx with rfl | hx2
      · exact Nat.le_of_lt hlt
      · exact Nat.le_trans (Nat.le_of_lt hlt) (hu x hx2)
    · rw [if_neg hlt]
      refine List.Pairwise.cons ?_ (ih hus)
      intro x hx
      have hx2 : x ∈ t :: us := (pqInsert_perm t us).mem_iff.mp hx
      rcases List.mem_cons.mp hx2 with rfl | hx3
      · exact Nat.le_of_not_lt hlt
      · exact hu x hx3

@[simp] theorem mergeLoopAux_nil (n : Nat) : mergeLoopAux n [] = Node.nil := by
  cases n <;> rfl

@[simp] theorem mergeLoopAux_one (n : Nat) (t : Node) : mergeLoopAux n [t] = t := by
  cases n <;> rfl

theorem mergeLoopAux_cons₂ (n : Nat) (a b : Node) (rest : List Node) :
    mergeLoopAux (n + 1) (a :: b :: rest) =
      mergeLoopAux n (pqInsert (Node.mk 0 (a.freq + b.freq) a b) rest) := rfl

theorem mergeLoopAux_congr :
    ∀ (n m : Nat) (l : List Node), l.length ≤ n + 1 → l.length ≤ m + 1 →
      mergeLoopAux n l = mergeLoopAux m l := by
  intro n
  induction n with
  | zero =>
    intro m l hn _
    match l with
    | [] => simp
    | [t] => simp
    | a :: b :: rest => simp at hn
  | succ k ih =>
    intro m l hn hm
    match l with
    | [] => simp
    | [t] => simp
    | a :: b :: rest =>
      cases m with
      | zero => simp at hm
      | succ mk =>
        rw [mergeLoopAux_cons₂, mergeLoopAux_cons₂]
        apply ih mk
        · rw [length_pqInsert]
          simp at hn
          omega
        · rw [length_pqInsert]
          simp at hm
          omega

theorem mergeLoop_one (t : Node) : mergeLoop [t] = t := rfl

theorem mergeLoop_cons₂ (a b : Node) (rest : List Node) :
    mergeLoop (a :: b :: rest) =
      mergeLoop (pqInsert (Node.mk 0 (a.freq + b.freq) a b) rest) := by
  rw [mergeLoop, mergeLoop]
  show mergeLoopAux (rest.length + 1 + 1) (a :: b :: rest) = _
  rw [mergeLoopAux_cons₂]
  apply mergeLoopAux_congr
  · rw [length_pqInsert]
    omega
  · rw [length_pqInsert]
    omega

theorem huff_mergeLoop :
    ∀ (n : Nat) (l : List Node), l.length ≤ n → l ≠ [] →
      l.Pairwise (fun a b => a.freq ≤ b.freq) → Huff ↑l (mergeLoop l) := by
  intro n
  induction n with
  | zero =>
    intro l hlen hne _
    interval_cases h : l.length
    · exact absurd (List.length_eq_zero.mp h) hne
  | succ k ih =>
    intro l hlen hne hsort
    match l with
    | [t] =>
      rw [mergeLoop_one]
      have : (↑[t] : Multiset Node) = {t} := rfl
      rw [this]
      exact Huff.single t
    | a :: b :: rest =>
      rw [mergeLoop_cons₂]
      have hco : (↑(a :: b :: rest) : Multiset Node) = a ::ₘ b ::ₘ ↑rest := rfl
      rw [hco]
      rw [List.pairwise_cons] at hsort
      obtain ⟨hale, hsort2⟩ := hsort
      rw [List.pairwise_cons] at hsort2
      obtain ⟨hble, hsort3⟩ := hsort2
      refine Huff.step a b ↑rest _ ?_ ?_ ?_
      · intro c hc
        rcases Multiset.mem_cons.mp hc with rfl | hc2
        · exact hale c (by simp)
        · exact hale c (by simp [Multiset.mem_coe.mp hc2])
      · intro c hc
        exact hble c (Multiset.mem_coe.mp hc)
      · rw [← pqInsert_coe]
        apply ih
        · rw [length_pqInsert]
          simp at hlen
          omega
        · have : (pqInsert (Node.mk 0 (a.freq + b.freq) a b) rest).length = rest.length + 1 :=
            length_pqInsert _ _
          intro hcon
          rw [hcon] at this
          simp at this
        · exact pqInsert_sorted _ rest hsort3

theorem pqList_coe_aux :
    ∀ (freqs : List (Sym × Nat)) (acc : List Node),
      (↑(freqs.foldl (fun q p => pqInsert (Node.mk p.1 p.2 Node.nil Node.nil) q) acc) :
          Multiset Node) =
        ↑acc + ↑(freqs.map (fun p => Node.mk p.1 p.2 Node.nil Node.nil)) := by
  intro freqs
  induction freqs with
  | nil => simp
  | cons p ps ih =>
    intro acc
    rw [List.foldl_cons, ih (pqInsert (Node.mk p.1 p.2 Node.nil Node.nil) acc), pqInsert_coe]
    simp [Multiset.cons_add]
    exact List.perm_middle.symm

theorem pqList_coe (freqs : List (Sym × Nat)) :
    (↑(pqList freqs) : Multiset Node) =
      ↑(freqs.map (fun p => Node.mk p.1 p.2 Node.nil Node.nil)) := by
  rw [pqList, pqList_coe_aux freqs []]
  rfl

theorem pqList_length (freqs : List (Sym × Nat)) :
    (pqList freqs).length = freqs.length := by
  have h := congrArg Multiset.card (pqList_coe freqs)
  simpa using h

theorem pqList_sorted_aux :
    ∀ (freqs : List (Sym × Nat)) (acc : List Node),
      acc.Pairwise (fun a b => a.freq ≤ b.freq) →
        (freqs.foldl (fun q p => pqInsert (Node.mk p.1 p.2 Node.nil Node.nil) q) acc).Pairwise
          (fun a b => a.freq ≤ b.freq) := by
  intro freqs
  induction freqs with
  | nil => exact fun acc h => h
  | cons p ps ih =>
    intro acc hacc
    exact ih _ (pqInsert_sorted _ acc hacc)

theorem pqList_sorted (freqs : List (Sym × Nat)) :
    (pqList freqs).Pairwise (fun a b => a.freq ≤ b.freq) :=
  pqList_sorted_aux freqs [] (List.Pairwise.nil)

theorem huff_mem_of_card_one (F : Multiset Node) (t : Node) (h : Huff F t) :
    F.card = 1 → t ∈ F := by
  induction h with
  | single s => intro _; simp
  | step a b F2 t2 ha hb ih IH =>
    intro hc
    simp [Multiset.card_cons] at hc

theorem huffRootInternal (F : Multiset Node) (t : Node) (h : Huff F t) :
    2 ≤ F.card → (∀ s ∈ F, s ≠ Node.nil) →
      ∃ f a b, t = Node.mk 0 f a b ∧ a ≠ Node.nil ∧ b ≠ Node.nil := by
  induction h with
  | single s =>
    intro hc _
    simp at hc
  | step a b F2 t2 ha hb ih IH =>
    intro _ hnil
    by_cases hF2 : F2 = 0
    · subst hF2
      have hmem := huff_mem_of_card_one _ _ ih (by simp)
      have ht2 : t2 = Node.mk 0 (a.freq + b.freq) a b := by simpa using hmem
      exact ⟨a.freq + b.freq, a, b, ht2, hnil a (by simp), hnil b (by simp)⟩
    · apply IH
      · have hpos : 0 < F2.card := Multiset.card_pos.mpr hF2
        simp [Multiset.card_cons]
        omega
      · intro s hs
        rcases Multiset.mem_cons.mp hs with rfl | hs2
        · exact fun hcon => Node.noConfusion hcon
        · exact hnil s (by simp [hs2])

theorem huff_strictBinary (F : Multiset Node) (t : Node) (h : Huff F t) :
    (∀ s ∈ F, strictBinary s = true ∧ s ≠ Node.nil) → strictBinary t = true := by
  induction h with
  | single s => exact fun hs => (hs s (by simp)).1
  | step a b F2 t2 ha hb ih IH =>
    intro hs
    apply IH
    intro s hsm
    rcases Multiset.mem_cons.mp hsm with rfl | hmem
    · have hA := hs a (by simp)
      have hB := hs b (by simp)
      refine ⟨?_, fun hcon => Node.noConfusion hcon⟩
      simp [strictBinary, beq_eq_false_iff_ne.mpr hA.2, beq_eq_false_iff_ne.mpr hB.2,
        hA.1, hB.1]
    · exact hs s (by simp [hmem])

theorem huff_countNodes (F : Multiset Node) (t : Node) (h : Huff F t) :
    countNodes t = (F.map countNodes).sum + (F.card - 1) := by
  induction h with
  | single s => simp
  | step a b F2 t2 ha hb ih IH =>
    simp only [Multiset.map_cons, Multiset.sum_cons, Multiset.card_cons, countNodes] at IH ⊢
    omega

theorem huff_consistent (F : Multiset Node) (t : Node) (h : Huff F t) :
    (∀ s ∈ F, consistent s = true) → consistent t = true := by
  induction h with
  | single s => exact fun hs => hs s (by simp)
  | step a b F2 t2 ha hb ih IH =>
    intro hs
    apply IH
    intro s hsm
    rcases Multiset.mem_cons.mp hsm with rfl | hmem
    · cases hcond : (a == Node.nil && b == Node.nil) <;>
        simp [consistent, hcond, hs a (by simp), hs b (by simp)]
    · exact hs s (by simp [hmem])

theorem leafList_merge (f : Nat) (a b : Node) (ha : a ≠ Node.nil) :
    leafList (Node.mk 0 f a b) = leafList a ++ leafList b := by
  rw [leafList, pathsF]
  rw [if_neg (by simp [ha])]
  simp only [leafList, List.map_append, List.map_map]
  rfl

theorem huff_leafList (F : Multiset Node) (t : Node) (h : Huff F t) :
    (∀ s ∈ F, s ≠ Node.nil) →
      (↑(leafList t) : Multiset (Sym × Nat)) =
        (F.map (fun s => (↑(leafList s) : Multiset (Sym × Nat)))).sum := by
  induction h with
  | single s => intro _; simp
  | step a b F2 t2 ha hb ih IH =>
    intro hs
    rw [IH ?side]
    case side =>
      intro s hsm
      rcases Multiset.mem_cons.mp hsm with rfl | hmem
      · exact fun hcon => Node.noConfusion hcon
      · exact hs s (by simp [hmem])
    simp only [Multiset.map_cons, Multiset.sum_cons,
      leafList_merge (a.freq + b.freq) a b (hs a (by simp))]
    rw [← Multiset.coe_add]
    exact add_assoc _ _ _

theorem buildTreeRootMerge (st : HuffmanTree) (text : List Sym) (h : text ≠ [])
    (hd : (calculateFrequencies text).length ≠ 1) :
    (buildTree st text).1.root_ = mergeLoop (pqList (calculateFrequencies text)) := by
  simp [buildTree, h, pqList_length, hd]

theorem buildTreeRootSingle (st : HuffmanTree) (text : List Sym) (p : Sym × Nat)
    (h : text ≠ []) (hf : calculateFrequencies text = [p]) :
    (buildTree st text).1.root_ =
      Node.mk 0 p.2 (Node.mk p.1 p.2 Node.nil Node.nil) Node.nil := by
  simp [buildTree, h, hf, pqList, pqInsert]

theorem buildTree_codes (st : HuffmanTree) (text : List Sym) (h : text ≠ []) :
    (buildTree st text).1.huffmanCodes_ = generateCodes (buildTree st text).1.root_ [] := by
  simp [buildTree, h]

theorem pq_members (text : List Sym) :
    ∀ s ∈ (↑(pqList (calculateFrequencies text)) : Multiset Node),
      ∃ p ∈ calculateFrequencies text, s = Node.mk p.1 p.2 Node.nil Node.nil := by
  intro s hs
  rw [pqList_coe] at hs
  obtain ⟨p, hp, rfl⟩ := List.mem_map.mp (Multiset.mem_coe.mp hs)
  exact ⟨p, hp, rfl⟩

theorem buildTree_huff (st : HuffmanTree) (text : List Sym) (h : text ≠ [])
    (hd : 2 ≤ (calculateFrequencies text).length) :
    Huff ↑(pqList (calculateFrequencies text)) (buildTree st text).1.root_ := by
  rw [buildTreeRootMerge st text h (by omega)]
  apply huff_mergeLoop (pqList (calculateFrequencies text)).length _ le_rfl
  · exact List.length_pos.mp (by rw [pqList_length]; omega)
  · exact pqList_sorted _

/-- C5, amended: in every tree stored by a build over at least two distinct
symbols, every internal node has exactly two children; a build over exactly
one distinct symbol instead stores a root that is an internal node with
exactly one child. -/
theorem claim_c5_strict_binary (st : HuffmanTree) (text : List Sym) (h : text ≠ []) :
    (2 ≤ (buildTree st text).1.frequencies_.length →
      strictBinary (buildTree st text).1.root_ = true) ∧
    ((buildTree st text).1.frequencies_.length = 1 →
      (buildTree st text).1.root_.isLeaf = false ∧
        (buildTree st text).1.root_.left ≠ Node.nil ∧
        (buildTree st text).1.root_.right = Node.nil) := by
  rw [buildTree_fst_frequencies st text h]
  constructor
  · intro hd
    apply huff_strictBinary _ _ (buildTree_huff st text h hd)
    intro s hs
    obtain ⟨p, _, rfl⟩ := pq_members text s hs
    exact ⟨by simp [strictBinary], fun hcon => Node.noConfusion hcon⟩
  · intro hd
    obtain ⟨p, hp⟩ := List.length_eq_one.mp hd
    rw [buildTreeRootSingle st text p h hp]
    refine ⟨by simp, by simp, rfl⟩

theorem claim_c5_witness :
    strictBinary (buildTree HuffmanTree.unbuilt [97, 98]).1.root_ = true ∧
      ((buildTree HuffmanTree.unbuilt [97]).1.root_.isLeaf = false ∧
        (buildTree HuffmanTree.unbuilt [97]).1.root_.left ≠ Node.nil ∧
        (buildTree HuffmanTree.unbuilt [97]).1.root_.right = Node.nil) :=
  ⟨(claim_c5_strict_binary HuffmanTree.unbuilt [97, 98] (by decide)).1 (by decide),
    (claim_c5_strict_binary HuffmanTree.unbuilt [97] (by decide)).2 (by decide)⟩

theorem claim_c5_counterexample :
    (buildTree HuffmanTree.unbuilt [97]).1.root_.isLeaf = false ∧
      (buildTree HuffmanTree.unbuilt [97]).1.root_.left ≠ Node.nil ∧
      (buildTree HuffmanTree.unbuilt [97]).1.root_.right = Node.nil := by
  decide

/-- C6, amended: a build over d distinct symbols stores a tree of exactly
2d - 1 nodes when d is at least 2 (which also bounds the construction peak,
as every allocated node ends up in the stored tree), while a build over
exactly one distinct symbol stores 2 nodes, exceeding 2d - 1 = 1. -/
theorem claim_c6_node_count (st : HuffmanTree) (text : List Sym) (h : text ≠ []) :
    (2 ≤ (buildTree st text).1.frequencies_.length →
      countNodes (buildTree st text).1.root_ =
        2 * (buildTree st text).1.frequencies_.length - 1) ∧
    ((buildTree st text).1.frequencies_.length = 1 →
      countNodes (buildTree st text).1.root_ = 2) := by
  rw [buildTree_fst_frequencies st text h]
  constructor
  · intro hd
    have hcount := huff_countNodes _ _ (buildTree_huff st text h hd)
    have hcard : (↑(pqList (calculateFrequencies text)) : Multiset Node).card =
        (calculateFrequencies text).length := by
      simp [pqList_length]
    have hsum : ((↑(pqList (calculateFrequencies text)) : Multiset Node).map countNodes).sum =
        (calculateFrequencies text).length := by
      rw [pqList_coe]
      rw [Multiset.map_coe, Multiset.sum_coe]
      rw [List.map_map]
      have : (countNodes ∘ fun p : Sym × Nat => Node.mk p.1 p.2 Node.nil Node.nil) =
          fun _ => 1 := by
        funext p
        simp [countNodes]
      rw [this]
      simp [List.map_const]
    rw [hcount, hcard, hsum]
    omega
  · intro hd
    obtain ⟨p, hp⟩ := List.length_eq_one.mp hd
    rw [buildTreeRootSingle st text p h hp]
    simp [countNodes]

theorem claim_c6_witness :
    countNodes (buildTree HuffmanTree.unbuilt [97, 98, 99]).1.root_ =
        2 * (buildTree HuffmanTree.unbuilt [97, 98, 99]).1.frequencies_.length - 1 ∧
      countNodes (buildTree HuffmanTree.unbuilt [97]).1.root_ = 2 :=
  ⟨(claim_c6_node_count HuffmanTree.unbuilt [97, 98, 99] (by decide)).1 (by decide),
    (claim_c6_node_count HuffmanTree.unbuilt [97] (by decide)).2 (by decide)⟩

theorem claim_c6_counterexample :
    countNodes (buildTree HuffmanTree.unbuilt [97]).1.root_ = 2 ∧
      ¬ countNodes (buildTree HuffmanTree.unbuilt [97]).1.root_ ≤
          2 * (buildTree HuffmanTree.unbuilt [97]).1.frequencies_.length - 1 := by
  decide

theorem generateCodes_eq_pathsF :
    ∀ (t : Node) (pre : List Char), strictBinary t = true → pre ≠ [] →
      generateCodes t pre = (pathsF t).map (fun e => (e.1.1, pre ++ e.2)) := by
  intro t
  induction t with
  | nil => intro pre _ _; rfl
  | mk c f l r ihl ihr =>
    intro pre hsb hpre
    cases hleaf : (l == Node.nil && r == Node.nil) with
    | true =>
      rw [generateCodes, pathsF]
      simp only [Node.isLeaf_mk, hleaf, if_true, if_pos]
      simp [hpre]
    | false =>
      have hparts : (!(l == Node.nil) && !(r == Node.nil) && strictBinary l &&
          strictBinary r) = true := by
        rw [strictBinary, hleaf] at hsb
        simpa using hsb
      simp only [Bool.and_eq_true, Bool.not_eq_true', beq_eq_false_iff_ne] at hparts
      obtain ⟨⟨⟨hl, hr⟩, hsbl⟩, hsbr⟩ := hparts
      rw [generateCodes, pathsF]
      simp only [Node.isLeaf_mk, hleaf, if_false, Bool.false_eq_true]
      rw [ihl (pre ++ ['0']) hsbl (by simp), ihr (pre ++ ['1']) hsbr (by simp)]
      simp only [List.map_append, List.map_map]
      congr 1 <;> apply List.map_congr_left <;> intro e _ <;>
        simp [Function.comp, List.append_assoc]

theorem generateCodesRootEqPathsF (c2 : Sym) (f : Nat) (l r : Node)
    (hsb : strictBinary (Node.mk c2 f l r) = true) (hl : l ≠ Node.nil) (hr : r ≠ Node.nil) :
    generateCodes (Node.mk c2 f l r) [] =
      (pathsF (Node.mk c2 f l r)).map (fun e => (e.1.1, e.2)) := by
  have hleaf : (l == Node.nil && r == Node.nil) = false := by
    simp [beq_eq_false_iff_ne.mpr hl]
  have hparts : strictBinary l = true ∧ strictBinary r = true := by
    rw [strictBinary, hleaf] at hsb
    simp [beq_eq_false_iff_ne.mpr hl, beq_eq_false_iff_ne.mpr hr] at hsb
    exact hsb
  rw [generateCodes, pathsF]
  simp only [Node.isLeaf_mk, hleaf, if_false, Bool.false_eq_true, List.nil_append]
  rw [generateCodes_eq_pathsF l ['0'] hparts.1 (by simp),
    generateCodes_eq_pathsF r ['1'] hparts.2 (by simp)]
  simp only [List.map_append, List.map_map]
  congr 1

theorem pathsF_no_prefix (t : Node) (hsb : strictBinary t = true) :
    ∀ e1 ∈ pathsF t, ∀ e2 ∈ pathsF t, e1.1.1 ≠ e2.1.1 → ¬ e1.2 <+: e2.2 := by
  induction t with
  | nil => intro e1 h1; simp [pathsF] at h1
  | mk c f l r ihl ihr =>
    intro e1 h1 e2 h2 hne
    cases hleaf : (l == Node.nil && r == Node.nil) with
    | true =>
      rw [pathsF] at h1 h2
      simp only [hleaf, if_true, if_pos, List.mem_singleton] at h1 h2
      rw [h1, h2] at hne
      exact absurd rfl hne
    | false =>
      have hparts : (!(l == Node.nil) && !(r == Node.nil) && strictBinary l &&
          strictBinary r) = true := by
        rw [strictBinary, hleaf] at hsb
        simpa using hsb
      simp only [Bool.and_eq_true] at hparts
      obtain ⟨⟨_, hsbl⟩, hsbr⟩ := hparts
      rw [pathsF] at h1 h2
      simp only [hleaf, if_false, Bool.false_eq_true, List.mem_append,
        List.mem_map] at h1 h2
      rcases h1 with ⟨d1, hd1, rfl⟩ | ⟨d1, hd1, rfl⟩ <;>
        rcases h2 with ⟨d2, hd2, rfl⟩ | ⟨d2, hd2, rfl⟩
      · intro hp
        rw [List.cons_prefix_cons] at hp
        exact ihl hsbl d1 hd1 d2 hd2 hne hp.2
      · intro hp
        rw [List.cons_prefix_cons] at hp
        exact absurd hp.1 (by decide)
      · intro hp
        rw [List.cons_prefix_cons] at hp
        exact absurd hp.1 (by decide)
      · intro hp
        rw [List.cons_prefix_cons] at hp
        exact ihr hsbr d1 hd1 d2 hd2 hne hp.2

theorem buildTree_shape (st : HuffmanTree) (text : List Sym) (h : text ≠ [])
    (hd : 2 ≤ (calculateFrequencies text).length) :
    strictBinary (buildTree st text).1.root_ = true ∧
    (∃ f a b, (buildTree st text).1.root_ = Node.mk 0 f a b ∧
      a ≠ Node.nil ∧ b ≠ Node.nil) ∧
    (buildTree st text).1.huffmanCodes_ =
      (pathsF (buildTree st text).1.root_).map (fun e => (e.1.1, e.2)) := by
  have hhuff := buildTree_huff st text h hd
  have hnil : ∀ s ∈ (↑(pqList (calculateFrequencies text)) : Multiset Node),
      s ≠ Node.nil := by
    intro s hs
    obtain ⟨p, _, rfl⟩ := pq_members text s hs
    exact fun hcon => Node.noConfusion hcon
  have hsb : strictBinary (buildTree st text).1.root_ = true := by
    apply huff_strictBinary _ _ hhuff
    intro s hs
    obtain ⟨p, _, rfl⟩ := pq_members text s hs
    exact ⟨by simp [strictBinary], fun hcon => Node.noConfusion hcon⟩
  have hcard : 2 ≤ (↑(pqList (calculateFrequencies text)) : Multiset Node).card := by
    simpa [pqList_length] using hd
  obtain ⟨f, a, b, hroot, hanil, hbnil⟩ := huffRootInternal _ _ hhuff hcard hnil
  refine ⟨hsb, ⟨f, a, b, hroot, hanil, hbnil⟩, ?_⟩
  rw [buildTree_codes st text h, hroot]
  rw [hroot] at hsb
  exact generateCodesRootEqPathsF 0 f a b hsb hanil hbnil

/-- C2: for every Coder built from an input with at least two distinct
symbols, no symbol's stored code is a proper prefix of a different
symbol's stored code. -/
theorem claim_c2_prefix_free (st : HuffmanTree) (text : List Sym) (h : text ≠ [])
    (hd : 2 ≤ (buildTree st text).1.frequencies_.length) :
    ∀ e1 ∈ (buildTree st text).1.huffmanCodes_, ∀ e2 ∈ (buildTree st text).1.huffmanCodes_,
      e1.1 ≠ e2.1 → ¬ properPrefixOf e1.2 e2.2 := by
  rw [buildTree_fst_frequencies st text h] at hd
  obtain ⟨hsb, _, hcodes⟩ := buildTree_shape st text h hd
  rw [hcodes]
  intro e1 h1 e2 h2 hne
  obtain ⟨d1, hd1, rfl⟩ := List.mem_map.mp h1
  obtain ⟨d2, hd2, rfl⟩ := List.mem_map.mp h2
  intro hp
  exact pathsF_no_prefix _ hsb d1 hd1 d2 hd2 hne hp.1

theorem claim_c2_witness : ¬ properPrefixOf ['0'] ['1', '0'] :=
  claim_c2_prefix_free HuffmanTree.unbuilt [97, 98, 99] (by decide) (by decide)
    (99, ['0']) (by decide) (97, ['1', '0']) (by decide) (by decide)

theorem mapLookup_mem {A : Type} :
    ∀ (l : List (Sym × A)) (c : Sym) (v : A), mapLookup l c = some v → (c, v) ∈ l := by
  intro l
  induction l with
  | nil => intro c v h; simp [mapLookup] at h
  | cons p rest ih =>
    intro c v h
    obtain ⟨k, w⟩ := p
    by_cases hk : k = c
    · subst hk
      rw [mapLookup, if_pos rfl] at h
      cases h
      simp
    · rw [mapLookup, if_neg hk] at h
      exact List.mem_cons_of_mem _ (ih c v h)

theorem mapLookup_of_mem_nodup {A : Type} :
    ∀ (l : List (Sym × A)) (c : Sym) (v : A), (l.map Prod.fst).Nodup → (c, v) ∈ l →
      mapLookup l c = some v := by
  intro l
  induction l with
  | nil => intro c v _ h; simp at h
  | cons p rest ih =>
    intro c v hnd hm
    obtain ⟨k, w⟩ := p
    rw [List.map_cons, List.nodup_cons] at hnd
    rcases List.mem_cons.mp hm with heq | hmem
    · cases heq
      rw [mapLookup, if_pos rfl]
    · have hk : k ≠ c := by
        intro hcon
        subst hcon
        exact hnd.1 (List.mem_map.mpr ⟨(k, v), hmem, rfl⟩)
      rw [mapLookup, if_neg hk]
      exact ih c v hnd.2 hmem

theorem keys_bump (l : List (Sym × Nat)) (c : Sym) :
    (bump l c).map Prod.fst =
      (if c ∈ l.map Prod.fst then l.map Prod.fst else l.map Prod.fst ++ [c]) := by
  induction l with
  | nil => simp [bump]
  | cons p rest ih =>
    obtain ⟨k, v⟩ := p
    by_cases hk : k = c
    · subst hk
      simp [bump]
    · rw [bump, if_neg hk, List.map_cons, ih]
      by_cases hc : c ∈ rest.map Prod.fst <;>
        simp [hc, hk, Ne.symm hk]

theorem calc_keys_nodup_aux :
    ∀ (text : List Sym) (acc : List (Sym × Nat)), (acc.map Prod.fst).Nodup →
      ((text.foldl bump acc).map Prod.fst).Nodup := by
  intro text
  induction text with
  | nil => exact fun acc h => h
  | cons c cs ih =>
    intro acc hacc
    apply ih
    rw [keys_bump]
    by_cases hc : c ∈ acc.map Prod.fst
    · simpa [hc] using hacc
    · rw [if_neg hc]
      rw [← List.concat_eq_append]
      exact hacc.concat hc

theorem calc_keys_nodup (text : List Sym) :
    ((calculateFrequencies text).map Prod.fst).Nodup :=
  calc_keys_nodup_aux text [] (by simp)

theorem calc_ne_nil (text : List Sym) (h : text ≠ []) :
    calculateFrequencies text ≠ [] := by
  obtain ⟨c, cs, rfl⟩ := List.exists_cons_of_ne_nil h
  intro hcon
  have := mapLookup_calculateFrequencies (c :: cs) c (by simp)
  rw [hcon] at this
  simp [mapLookup] at this

theorem sum_map_singleton {A : Type} :
    ∀ l : List A, (l.map (fun p => ({p} : Multiset A))).sum = (↑l : Multiset A) := by
  intro l
  induction l with
  | nil => rfl
  | cons p ps ih =>
    rw [List.map_cons, List.sum_cons, ih, Multiset.singleton_add]
    rfl

theorem leafList_buildTree (st : HuffmanTree) (text : List Sym) (h : text ≠ [])
    (hd : 2 ≤ (calculateFrequencies text).length) :
    (↑(leafList (buildTree st text).1.root_) : Multiset (Sym × Nat)) =
      ↑(calculateFrequencies text) := by
  have hhuff := buildTree_huff st text h hd
  have hnil : ∀ s ∈ (↑(pqList (calculateFrequencies text)) : Multiset Node),
      s ≠ Node.nil := by
    intro s hs
    obtain ⟨p, _, rfl⟩ := pq_members text s hs
    exact fun hcon => Node.noConfusion hcon
  rw [huff_leafList _ _ hhuff hnil, pqList_coe, Multiset.map_coe, List.map_map]
  have hfun : ((fun s => (↑(leafList s) : Multiset (Sym × Nat))) ∘
      fun p : Sym × Nat => Node.mk p.1 p.2 Node.nil Node.nil) =
      fun p : Sym × Nat => ({p} : Multiset (Sym × Nat)) := by
    funext p
    simp [leafList, pathsF]
  rw [hfun, Multiset.sum_coe, sum_map_singleton]

theorem codes_lookup (st : HuffmanTree) (text : List Sym) (h : text ≠ [])
    (hd : 2 ≤ (calculateFrequencies text).length) :
    ∀ c ∈ text, ∃ p fq, mapLookup (buildTree st text).1.huffmanCodes_ c = some p ∧
      ((c, fq), p) ∈ pathsF (buildTree st text).1.root_ := by
  intro c hc
  obtain ⟨_, _, hcodes⟩ := buildTree_shape st text h hd
  have hfq := mapLookup_calculateFrequencies text c hc
  have hmemf : (c, text.count c) ∈ calculateFrequencies text :=
    mapLookup_mem _ c _ hfq
  have hmemleaf : (c, text.count c) ∈ leafList (buildTree st text).1.root_ := by
    rw [← Multiset.mem_coe, leafList_buildTree st text h hd, Multiset.mem_coe]
    exact hmemf
  obtain ⟨e, he, heq⟩ := List.mem_map.mp hmemleaf
  have hment : (c, e.2) ∈ (buildTree st text).1.huffmanCodes_ := by
    rw [hcodes]
    apply List.mem_map.mpr
    refine ⟨e, he, ?_⟩
    rw [heq]
  have hnodup : ((buildTree st text).1.huffmanCodes_.map Prod.fst).Nodup := by
    rw [hcodes, List.map_map]
    have hfn : (Prod.fst ∘ fun e : (Sym × Nat) × List Char => (e.1.1, e.2)) =
        Prod.fst ∘ Prod.fst := rfl
    rw [hfn, ← List.map_map, ← leafList]
    have hperm : (↑((leafList (buildTree st text).1.root_).map Prod.fst) :
        Multiset Sym) = ↑((calculateFrequencies text).map Prod.fst) := by
      rw [← Multiset.map_coe, ← Multiset.map_coe, leafList_buildTree st text h hd]
    rw [← Multiset.coe_nodup, hperm, Multiset.coe_nodup]
    exact calc_keys_nodup text
  refine ⟨e.2, e.1.2, mapLookup_of_mem_nodup _ c e.2 hnodup hment, ?_⟩
  have : ((c, e.1.2), e.2) = e := by
    have h1 : e.1.1 = c := congrArg Prod.fst heq
    calc ((c, e.1.2), e.2) = ((e.1.1, e.1.2), e.2) := by rw [h1]
    _ = e := rfl
  rw [this]
  exact he

theorem decodeLoop_cons_zero (root cur : Node) (acc : List Sym) (bs : List Char) :
    decodeLoop root ('0' :: bs) cur acc =
      (if cur.left = Node.nil then Except.error HuffErr.traversalError
       else if cur.left.isLeaf then decodeLoop root bs root (acc ++ [cur.left.char])
       else decodeLoop root bs cur.left acc) := by
  simp [decodeLoop]

theorem decodeLoop_cons_one (root cur : Node) (acc : List Sym) (bs : List Char) :
    decodeLoop root ('1' :: bs) cur acc =
      (if cur.right = Node.nil then Except.error HuffErr.traversalError
       else if cur.right.isLeaf then decodeLoop root bs root (acc ++ [cur.right.char])
       else decodeLoop root bs cur.right acc) := by
  simp [decodeLoop]

theorem pathsF_leaf (c : Sym) (f : Nat) (l r : Node)
    (h : (Node.mk c f l r).isLeaf = true) :
    pathsF (Node.mk c f l r) = [((c, f), [])] := by
  rw [pathsF, if_pos (by simpa using h)]

theorem decodeLoop_path (root : Node) :
    ∀ sub : Node, strictBinary sub = true → sub.isLeaf = false →
      ∀ (s : Sym) (fq : Nat) (p : List Char), ((s, fq), p) ∈ pathsF sub →
        ∀ (rest : List Char) (acc : List Sym),
          decodeLoop root (p ++ rest) sub acc = decodeLoop root rest root (acc ++ [s]) := by
  intro sub
  induction sub with
  | nil =>
    intro _ _ s fq p hp
    simp [pathsF] at hp
  | mk c f l r ihl ihr =>
    intro hsb hleaf s fq p hp rest acc
    have hlr : (l == Node.nil && r == Node.nil) = false := by simpa using hleaf
    have hsb2 := hsb
    rw [strictBinary, hlr] at hsb2
    simp only [Bool.false_or, Bool.and_eq_true, Bool.not_eq_true', beq_eq_false_iff_ne]
      at hsb2
    obtain ⟨⟨⟨hl, hr⟩, hsbl⟩, hsbr⟩ := hsb2
    rw [pathsF] at hp
    simp only [hlr, Bool.false_eq_true, if_false, List.mem_append, List.mem_map] at hp
    rcases hp with ⟨⟨⟨s2, f2⟩, p2⟩, he, heq⟩ | ⟨⟨⟨s2, f2⟩, p2⟩, he, heq⟩
    · simp only [Prod.mk.injEq] at heq
      obtain ⟨⟨rfl, rfl⟩, rfl⟩ := heq
      rw [List.cons_append, decodeLoop_cons_zero, Node.left_mk, if_neg hl]
      by_cases hleafl : l.isLeaf = true
      · cases l with
        | nil => exact absurd rfl hl
        | mk cl fl ll rl =>
          rw [pathsF_leaf cl fl ll rl hleafl] at he
          simp only [List.mem_singleton, Prod.mk.injEq] at he
          obtain ⟨⟨rfl, rfl⟩, rfl⟩ := he
          rw [if_pos hleafl]
          simp [Node.char]
      · rw [if_neg hleafl]
        exact ihl hsbl (Bool.not_eq_true _ |>.mp hleafl) _ _ p2 he rest acc
    · simp only [Prod.mk.injEq] at heq
      obtain ⟨⟨rfl, rfl⟩, rfl⟩ := heq
      rw [List.cons_append, decodeLoop_cons_one, Node.right_mk, if_neg hr]
      by_cases hleafr : r.isLeaf = true
      · cases r with
        | nil => exact absurd rfl hr
        | mk cr fr lr rr =>
          rw [pathsF_leaf cr fr lr rr hleafr] at he
          simp only [List.mem_singleton, Prod.mk.injEq] at he
          obtain ⟨⟨rfl, rfl⟩, rfl⟩ := he
          rw [if_pos hleafr]
          simp [Node.char]
      · rw [if_neg hleafr]
        exact ihr hsbr (Bool.not_eq_true _ |>.mp hleafr) _ _ p2 he rest acc

theorem decodeLoop_encode (root : Node) (hsb : strictBinary root = true)
    (hleaf : root.isLeaf = false) (codes : List (Sym × List Char)) :
    ∀ (text : List Sym) (acc : List Sym),
      (∀ c ∈ text, ∃ p fq, mapLookup codes c = some p ∧ ((c, fq), p) ∈ pathsF root) →
        decodeLoop root
          (text.foldr (fun c acc2 => (mapLookup codes c).getD [] ++ acc2) []) root acc =
          Except.ok (root, acc ++ text) := by
  intro text
  induction text with
  | nil => intro acc _; simp [decodeLoop]
  | cons c cs ih =>
    intro acc hpres
    obtain ⟨p, fq, hlook, hmem⟩ := hpres c (by simp)
    rw [List.foldr_cons, hlook]
    simp only [Option.getD_some]
    rw [decodeLoop_path root root hsb hleaf c fq p hmem _ acc]
    rw [ih (acc ++ [c]) (fun c2 h2 => hpres c2 (by simp [h2]))]
    simp

/-- C1: for every non-empty byte sequence, after a successful build on that
sequence, encode succeeds and decode of the encoded bit string returns
exactly the original sequence. -/
theorem claim_c1_round_trip (st : HuffmanTree) (text : List Sym) (h : text ≠ []) :
    ∃ bits, encode (buildTree st text).1 text = Except.ok bits ∧
      decode (buildTree st text).1 bits = Except.ok text := by
  by_cases hd : 2 ≤ (calculateFrequencies text).length
  · obtain ⟨hsb, ⟨f, a, b, hroot, ha, hb⟩, hcodes⟩ := buildTree_shape st text h hd
    have hpres := codes_lookup st text h hd
    have hall : ∀ c ∈ text,
        (mapLookup (buildTree st text).1.huffmanCodes_ c).isSome = true := by
      intro c hc
      obtain ⟨p, fq, hl, _⟩ := hpres c hc
      simp [hl]
    obtain ⟨n, hn⟩ := computeTotalSize_ok_of_present _ text hall
    have hrootne : (buildTree st text).1.root_ ≠ Node.nil := by
      rw [hroot]
      exact fun hcon => Node.noConfusion hcon
    have hleaf : (buildTree st text).1.root_.isLeaf = false := by
      rw [hroot]
      simp [beq_eq_false_iff_ne.mpr ha, beq_eq_false_iff_ne.mpr hb]
    have hshape : ¬ ((buildTree st text).1.root_.left ≠ Node.nil ∧
        (buildTree st text).1.root_.left.isLeaf = true ∧
        (buildTree st text).1.root_.right = Node.nil) := by
      rw [hroot]
      simp only [Node.left_mk, Node.right_mk]
      exact fun hcon => hb hcon.2.2
    refine ⟨text.foldr
      (fun c acc => (mapLookup (buildTree st text).1.huffmanCodes_ c).getD [] ++ acc) [],
      ?_, ?_⟩
    · rw [encode, if_neg hrootne, hn]
    · have hloop := decodeLoop_encode (buildTree st text).1.root_ hsb hleaf
        (buildTree st text).1.huffmanCodes_ text [] hpres
      rw [decode, if_neg hrootne, if_neg hshape, hloop]
      simp
  · have hne := calc_ne_nil text h
    have hd1 : (calculateFrequencies text).length = 1 := by
      have hpos : 0 < (calculateFrequencies text).length := List.length_pos.mpr hne
      omega
    obtain ⟨p, hp⟩ := List.length_eq_one.mp hd1
    obtain ⟨k, v⟩ := p
    have hall : ∀ c ∈ text, c = k := by
      intro c hc
      have hlk := mapLookup_calculateFrequencies text c hc
      rw [hp] at hlk
      by_cases hq : k = c
      · exact hq.symm
      · rw [mapLookup, if_neg hq] at hlk
        simp [mapLookup] at hlk
    obtain ⟨n, hlen⟩ : ∃ n, text.length = n := ⟨_, rfl⟩
    have hn : 0 < n := by
      rw [← hlen]
      exact List.length_pos.mpr h
    have htext : text = List.replicate n k := by
      rw [List.eq_replicate_iff]
      exact ⟨hlen, hall⟩
    refine ⟨List.replicate n '0', ?_, ?_⟩
    · rw [htext, buildTree_replicate st k n hn]
      simp [encode, computeTotalSize_single, foldr_codes_single]
    · rw [htext, buildTree_replicate st k n hn]
      simp [decode, Node.isLeaf, decodeSingle_replicate]

theorem claim_c1_witness :
    ∃ bits, encode (buildTree HuffmanTree.unbuilt [97, 98, 99]).1 [97, 98, 99] =
        Except.ok bits ∧
      decode (buildTree HuffmanTree.unbuilt [97, 98, 99]).1 bits =
        Except.ok [97, 98, 99] :=
  claim_c1_round_trip HuffmanTree.unbuilt [97, 98, 99] (by decide)

/-- C10, amended first part: on a built Coder in the general (two-children)
tree shape, whenever the bit walk consumes the whole input without error
but does not end at the root, decode fails with the incomplete-sequence
error.  (Decoding a one-bit truncation of an encoding need not end away
from the root: when the final symbol's code has one bit, the truncation
decodes successfully, as the counterexample shows.) -/
theorem claim_c10_incomplete_sequence (st : HuffmanTree) (bits : List Char)
    (hroot : st.root_ ≠ Node.nil)
    (hshape : ¬ (st.root_.left ≠ Node.nil ∧ st.root_.left.isLeaf = true ∧
      st.root_.right = Node.nil))
    (cur : Node) (acc : List Sym)
    (hloop : decodeLoop st.root_ bits st.root_ [] = Except.ok (cur, acc))
    (hcur : cur ≠ st.root_) :
    decode st bits = Except.error HuffErr.incompleteSequenceError := by
  rw [decode, if_neg hroot, if_neg hshape, hloop]
  simp [hcur]

theorem claim_c10_witness :
    decode (buildTree HuffmanTree.unbuilt [97, 98, 99]).1 ['1'] =
      Except.error HuffErr.incompleteSequenceError :=
  claim_c10_incomplete_sequence (buildTree HuffmanTree.unbuilt [97, 98, 99]).1 ['1']
    (by decide) (by decide)
    (Node.mk 0 2 (Node.mk 97 1 Node.nil Node.nil) (Node.mk 98 1 Node.nil Node.nil)) []
    (by decide) (by decide)

theorem claim_c10_counterexample :
    encode (buildTree HuffmanTree.unbuilt [97, 98]).1 [97, 98] = Except.ok ['0', '1'] ∧
      decode (buildTree HuffmanTree.unbuilt [97, 98]).1 ['0'] = Except.ok [97] := by
  decide

theorem tails0_cons_false (u : List Bool) (L : List (List Bool)) :
    tails0 ((false :: u) :: L) = u :: tails0 L := by
  simp [tails0, List.filterMap_cons]

theorem tails0_cons_true (u : List Bool) (L : List (List Bool)) :
    tails0 ((true :: u) :: L) = tails0 L := by
  simp [tails0, List.filterMap_cons]

theorem tails1_cons_false (u : List Bool) (L : List (List Bool)) :
    tails1 ((false :: u) :: L) = tails1 L := by
  simp [tails1, List.filterMap_cons]

theorem tails1_cons_true (u : List Bool) (L : List (List Bool)) :
    tails1 ((true :: u) :: L) = u :: tails1 L := by
  simp [tails1, List.filterMap_cons]

theorem tails_measure :
    ∀ L : List (List Bool), (∀ u ∈ L, u ≠ []) →
      ((tails0 L).map List.length).sum + (tails0 L).length +
        (((tails1 L).map List.length).sum + (tails1 L).length) =
        (L.map List.length).sum := by
  intro L
  induction L with
  | nil => intro _; rfl
  | cons u rest ih =>
    intro hne
    have hrest := ih fun v hv => hne v (by simp [hv])
    match u, hne u (by simp) with
    | b :: u2, _ =>
      cases b
      · rw [tails0_cons_false, tails1_cons_false]
        simp only [List.map_cons, List.sum_cons, List.length_cons]
        omega
      · rw [tails0_cons_true, tails1_cons_true]
        simp only [List.map_cons, List.sum_cons, List.length_cons]
        omega

theorem kraft_split :
    ∀ L : List (List Bool), (∀ u ∈ L, u ≠ []) →
      ((L.map List.length).map (fun l => ((1 : ℚ) / 2) ^ l)).sum =
        (1 / 2) * (((tails0 L).map List.length).map (fun l => ((1 : ℚ) / 2) ^ l)).sum +
          (1 / 2) * (((tails1 L).map List.length).map (fun l => ((1 : ℚ) / 2) ^ l)).sum := by
  intro L
  induction L with
  | nil => intro _; simp [tails0, tails1]
  | cons u rest ih =>
    intro hne
    have hrest := ih fun v hv => hne v (by simp [hv])
    match u, hne u (by simp) with
    | b :: u2, _ =>
      cases b
      · rw [tails0_cons_false, tails1_cons_false]
        simp only [List.map_cons, List.sum_cons, List.length_cons, hrest]
        rw [pow_succ]
        ring
      · rw [tails0_cons_true, tails1_cons_true]
        simp only [List.map_cons, List.sum_cons, List.length_cons, hrest]
        rw [pow_succ]
        ring

theorem tails0_pairwise (L : List (List Bool))
    (hp : L.Pairwise (fun u v => ¬ u <+: v ∧ ¬ v <+: u)) :
    (tails0 L).Pairwise (fun u v => ¬ u <+: v ∧ ¬ v <+: u) := by
  apply List.Pairwise.filterMap _ ?_ hp
  intro a a2 r b hb b2 hb2
  match a with
  | [] => simp at hb
  | true :: at1 => simp at hb
  | false :: at1 =>
    simp only [Option.mem_def, Option.some.injEq] at hb
    subst hb
    match a2 with
    | [] => simp at hb2
    | true :: at2 => simp at hb2
    | false :: at2 =>
      simp only [Option.mem_def, Option.some.injEq] at hb2
      subst hb2
      constructor
      · exact fun hc => r.1 (List.cons_prefix_cons.mpr ⟨rfl, hc⟩)
      · exact fun hc => r.2 (List.cons_prefix_cons.mpr ⟨rfl, hc⟩)

theorem tails1_pairwise (L : List (List Bool))
    (hp : L.Pairwise (fun u v => ¬ u <+: v ∧ ¬ v <+: u)) :
    (tails1 L).Pairwise (fun u v => ¬ u <+: v ∧ ¬ v <+: u) := by
  apply List.Pairwise.filterMap _ ?_ hp
  intro a a2 r b hb b2 hb2
  match a with
  | [] => simp at hb
  | false :: at1 => simp at hb
  | true :: at1 =>
    simp only [Option.mem_def, Option.some.injEq] at hb
    subst hb
    match a2 with
    | [] => simp at hb2
    | false :: at2 => simp at hb2
    | true :: at2 =>
      simp only [Option.mem_def, Option.some.injEq] at hb2
      subst hb2
      constructor
      · exact fun hc => r.1 (List.cons_prefix_cons.mpr ⟨rfl, hc⟩)
      · exact fun hc => r.2 (List.cons_prefix_cons.mpr ⟨rfl, hc⟩)

theorem pf_mem_nil_singleton (L : List (List Bool))
    (hp : L.Pairwise (fun u v => ¬ u <+: v ∧ ¬ v <+: u)) (hmem : [] ∈ L) :
    L = [[]] := by
  cases L with
  | nil => simp at hmem
  | cons x rest =>
    rw [List.pairwise_cons] at hp
    rcases List.mem_cons.mp hmem with rfl | hmem2
    · cases rest with
      | nil => rfl
      | cons y rest2 => exact absurd List.nil_prefix (hp.1 y (by simp)).1
    · exact absurd List.nil_prefix (hp.1 [] hmem2).2

theorem kraft_main :
    ∀ (N : Nat) (L : List (List Bool)),
      (L.map List.length).sum + L.length ≤ N →
      L.Pairwise (fun u v => ¬ u <+: v ∧ ¬ v <+: u) →
      ((L.map List.length).map (fun l => ((1 : ℚ) / 2) ^ l)).sum ≤ 1 := by
  intro N
  induction N with
  | zero =>
    intro L hm _
    have hz : L.length = 0 := by omega
    rw [List.length_eq_zero.mp hz]
    norm_num
  | succ n ih =>
    intro L hm hp
    by_cases hLnil : L = []
    · subst hLnil
      norm_num
    · by_cases hmem : [] ∈ L
      · rw [pf_mem_nil_singleton L hp hmem]
        norm_num
      · have hne : ∀ u ∈ L, u ≠ [] := fun u hu hcon => hmem (hcon ▸ hu)
        rw [kraft_split L hne]
        have hmeas := tails_measure L hne
        have hLpos : 1 ≤ L.length := List.length_pos.mpr hLnil
        have h0 := ih (tails0 L) (by omega) (tails0_pairwise L hp)
        have h1 := ih (tails1 L) (by omega) (tails1_pairwise L hp)
        linarith

theorem kraft_of_pf_list (L : List (List Bool))
    (hp : L.Pairwise (fun u v => ¬ u <+: v ∧ ¬ v <+: u)) :
    kraftSum ↑(L.map List.length) ≤ 1 := by
  rw [kraftSum, Multiset.map_coe, Multiset.sum_coe]
  exact kraft_main ((L.map List.length).sum + L.length) L le_rfl hp

theorem pull_max (w : Nat) (T : Multiset (Nat × Nat)) :
    ∀ l : Nat, (∀ p ∈ T, w ≤ p.1) →
      ∃ (l2 : Nat) (T2 : Multiset (Nat × Nat)),
        T2.map Prod.fst = T.map Prod.fst ∧
        l2 ::ₘ T2.map Prod.snd = l ::ₘ T.map Prod.snd ∧
        (∀ p ∈ T2, p.2 ≤ l2) ∧
        w * l2 + (T2.map (fun p => p.1 * p.2)).sum ≤
          w * l + (T.map (fun p => p.1 * p.2)).sum := by
  induction T using Multiset.induction_on with
  | empty =>
    intro l _
    exact ⟨l, 0, rfl, rfl, by simp, le_rfl⟩
  | cons q T0 ih =>
    intro l hw
    obtain ⟨l0, T0', hfst, hsnd, hdom, hcost⟩ :=
      ih l (fun p hp => hw p (Multiset.mem_cons_of_mem hp))
    by_cases hle : q.2 ≤ l0
    · refine ⟨l0, q ::ₘ T0', ?_, ?_, ?_, ?_⟩
      · simp only [Multiset.map_cons, hfst]
      · simp only [Multiset.map_cons]
        rw [Multiset.cons_swap l0 q.2, hsnd, Multiset.cons_swap q.2 l]
      · intro p hp
        rcases Multiset.mem_cons.mp hp with rfl | hp2
        · exact hle
        · exact hdom p hp2
      · simp only [Multiset.map_cons, Multiset.sum_cons]
        omega
    · push_neg at hle
      have hwq : w ≤ q.1 := hw q (Multiset.mem_cons_self q _)
      refine ⟨q.2, (q.1, l0) ::ₘ T0', ?_, ?_, ?_, ?_⟩
      · simp only [Multiset.map_cons, hfst]
      · simp only [Multiset.map_cons]
        rw [hsnd, Multiset.cons_swap q.2 l]
      · intro p hp
        rcases Multiset.mem_cons.mp hp with rfl | hp2
        · exact Nat.le_of_lt hle
        · exact Nat.le_trans (hdom p hp2) (Nat.le_of_lt hle)
      · simp only [Multiset.map_cons, Multiset.sum_cons]
        have hre : w * q.2 + q.1 * l0 ≤ w * l0 + q.1 * q.2 :=
          mul_add_mul_le_mul_add_mul hwq (Nat.le_of_lt hle)
        omega

theorem kraftSum_scale (M : Multiset Nat) (B : Nat) :
    (∀ x ∈ M, x ≤ B) →
      kraftSum M * 2 ^ B = (((M.map (fun x => 2 ^ (B - x))).sum : Nat) : ℚ) := by
  induction M using Multiset.induction_on with
  | empty => intro _; simp [kraftSum]
  | cons x M0 ih =>
    intro hb
    have hx : x ≤ B := hb x (Multiset.mem_cons_self x _)
    have hrec := ih (fun y hy => hb y (Multiset.mem_cons_of_mem hy))
    rw [kraftSum, Multiset.map_cons, Multiset.sum_cons, add_mul, ← kraftSum, hrec]
    rw [Multiset.map_cons, Multiset.sum_cons]
    have h2 : ((1 : ℚ) / 2) ^ x * 2 ^ B = 2 ^ (B - x) := by
      rw [div_pow, one_pow, div_mul_eq_mul_div, one_mul, div_eq_iff (by positivity)]
      rw [← pow_add]
      congr 1
      omega
    rw [h2]
    push_cast
    ring

theorem kraft_cap (l1 l2 : Nat) (L : Multiset Nat) (h12 : l2 ≤ l1)
    (hdom : ∀ x ∈ L, x ≤ l2) (hk : kraftSum (l1 ::ₘ l2 ::ₘ L) ≤ 1) :
    kraftSum (l2 ::ₘ l2 ::ₘ L) ≤ 1 := by
  have hscale : kraftSum (l2 ::ₘ L) * 2 ^ l2 =
      ((((l2 ::ₘ L).map (fun x => 2 ^ (l2 - x))).sum : Nat) : ℚ) := by
    apply kraftSum_scale
    intro x hx
    rcases Multiset.mem_cons.mp hx with rfl | h2
    · exact le_rfl
    · exact hdom x h2
  have hsplit1 : kraftSum (l1 ::ₘ l2 ::ₘ L) = ((1 : ℚ) / 2) ^ l1 + kraftSum (l2 ::ₘ L) := by
    rw [kraftSum, kraftSum, Multiset.map_cons, Multiset.sum_cons]
  have hpos : (0 : ℚ) < ((1 : ℚ) / 2) ^ l1 := by positivity
  have h2pos : (0 : ℚ) < 2 ^ l2 := by positivity
  have hlt : ((((l2 ::ₘ L).map (fun x => 2 ^ (l2 - x))).sum : Nat) : ℚ) < 2 ^ l2 := by
    have hlt1 : kraftSum (l2 ::ₘ L) < 1 := by
      rw [hsplit1] at hk
      linarith
    calc ((((l2 ::ₘ L).map (fun x => 2 ^ (l2 - x))).sum : Nat) : ℚ)
        = kraftSum (l2 ::ₘ L) * 2 ^ l2 := hscale.symm
      _ < 1 * 2 ^ l2 := mul_lt_mul_of_pos_right hlt1 h2pos
      _ = 2 ^ l2 := one_mul _
  have hklt : (((l2 ::ₘ L).map (fun x => 2 ^ (l2 - x))).sum : Nat) < 2 ^ l2 := by
    exact_mod_cast hlt
  have hgoal_scale : kraftSum (l2 ::ₘ l2 ::ₘ L) * 2 ^ l2 =
      1 + ((((l2 ::ₘ L).map (fun x => 2 ^ (l2 - x))).sum : Nat) : ℚ) := by
    have hsplit2 : kraftSum (l2 ::ₘ l2 ::ₘ L) =
        ((1 : ℚ) / 2) ^ l2 + kraftSum (l2 ::ₘ L) := by
      rw [kraftSum, kraftSum, Multiset.map_cons, Multiset.sum_cons]
    rw [hsplit2, add_mul, hscale]
    congr 1
    rw [div_pow, one_pow, div_mul_eq_mul_div, one_mul, div_eq_iff (ne_of_gt h2pos), one_mul]
  have hfin : kraftSum (l2 ::ₘ l2 ::ₘ L) * 2 ^ l2 ≤ 1 * 2 ^ l2 := by
    rw [hgoal_scale, one_mul]
    have hsucc : (((l2 ::ₘ L).map (fun x => 2 ^ (l2 - x))).sum : Nat) + 1 ≤ 2 ^ l2 := hklt
    calc 1 + ((((l2 ::ₘ L).map (fun x => 2 ^ (l2 - x))).sum : Nat) : ℚ)
        = (((((l2 ::ₘ L).map (fun x => 2 ^ (l2 - x))).sum : Nat) + 1 : Nat) : ℚ) := by
          push_cast
          ring
      _ ≤ (((2 ^ l2 : Nat) : ℚ)) := by exact_mod_cast hsucc
      _ = (2 : ℚ) ^ l2 := by push_cast; ring
  exact le_of_mul_le_mul_right hfin h2pos

theorem kraftSum_nonneg (L : Multiset Nat) : (0 : ℚ) ≤ kraftSum L := by
  apply Multiset.sum_nonneg
  intro x hx
  obtain ⟨y, _, rfl⟩ := Multiset.mem_map.mp hx
  positivity

theorem kraft_zero_absurd (l1 : Nat) (L : Multiset Nat)
    (hk : kraftSum (l1 ::ₘ 0 ::ₘ L) ≤ 1) : False := by
  have h1 : kraftSum (l1 ::ₘ 0 ::ₘ L) = ((1 : ℚ) / 2) ^ l1 + (1 + kraftSum L) := by
    rw [kraftSum, Multiset.map_cons, Multiset.sum_cons, Multiset.map_cons, Multiset.sum_cons]
    rw [← kraftSum]
    norm_num
  have hpos : (0 : ℚ) < ((1 : ℚ) / 2) ^ l1 := by positivity
  have hnn := kraftSum_nonneg L
  rw [h1] at hk
  linarith

theorem huff_opt (F : Multiset Node) (t : Node) (h : Huff F t) :
    ∀ R : Multiset (Nat × Nat), R.map Prod.fst = F.map Node.freq →
      kraftSum (R.map Prod.snd) ≤ 1 →
      cost t ≤ (F.map cost).sum + (R.map (fun p => p.1 * p.2)).sum := by
  induction h with
  | single s =>
    intro R hfst hk
    simp only [Multiset.map_singleton, Multiset.sum_singleton]
    exact Nat.le_add_right _ _
  | step a b F0 t2 ha hb ih IH =>
    intro R hfst hk
    rw [Multiset.map_cons, Multiset.map_cons] at hfst
    obtain ⟨pa, hmem_a, hfa, herase_a⟩ := (Multiset.map_eq_cons Prod.fst R _ _).mpr hfst
    obtain ⟨pb, hmem_b, hfb, herase_b⟩ :=
      (Multiset.map_eq_cons Prod.fst (R.erase pa) _ _).mpr herase_a
    have hRa : R = pa ::ₘ R.erase pa := (Multiset.cons_erase hmem_a).symm
    have hRb : R.erase pa = pb ::ₘ (R.erase pa).erase pb := (Multiset.cons_erase hmem_b).symm
    set S := (R.erase pa).erase pb with hS_def
    have hRfull : R = pa ::ₘ pb ::ₘ S := by rw [hRa, hRb]
    have hwS : ∀ p ∈ pb ::ₘ S, a.freq ≤ p.1 := by
      intro p hp
      have hp1 : p.1 ∈ Multiset.map Prod.fst (pb ::ₘ S) := Multiset.mem_map_of_mem _ hp
      rw [← hRb, herase_a] at hp1
      rcases Multiset.mem_cons.mp hp1 with heq | hmem
      · rw [heq]
        exact ha b (Multiset.mem_cons_self b F0)
      · obtain ⟨c, hc, hceq⟩ := Multiset.mem_map.mp hmem
        rw [← hceq]
        exact ha c (Multiset.mem_cons_of_mem hc)
    obtain ⟨la2, T1, hT1_fst, hT1_snd, hT1_dom, hT1_cost⟩ :=
      pull_max a.freq (pb ::ₘ S) pa.2 hwS
    have hT1_fst2 : T1.map Prod.fst = b.freq ::ₘ S.map Prod.fst := by
      rw [hT1_fst, Multiset.map_cons, hfb]
    obtain ⟨pb2, hmem_b2, hfb2, herase_b2⟩ :=
      (Multiset.map_eq_cons Prod.fst T1 _ _).mpr hT1_fst2
    have hT1_eq : T1 = pb2 ::ₘ T1.erase pb2 := (Multiset.cons_erase hmem_b2).symm
    set S2 := T1.erase pb2 with hS2_def
    have hwS2 : ∀ p ∈ S2, b.freq ≤ p.1 := by
      intro p hp
      have hp1 : p.1 ∈ Multiset.map Prod.fst S2 := Multiset.mem_map_of_mem _ hp
      rw [herase_b2, herase_b] at hp1
      obtain ⟨c, hc, hceq⟩ := Multiset.mem_map.mp hp1
      rw [← hceq]
      exact hb c hc
    obtain ⟨lb2, S3, hS3_fst, hS3_snd, hS3_dom, hS3_cost⟩ := pull_max b.freq S2 pb2.2 hwS2
    have hmem_lb2 : lb2 ∈ T1.map Prod.snd := by
      have hm : lb2 ∈ lb2 ::ₘ S3.map Prod.snd := Multiset.mem_cons_self _ _
      rw [hS3_snd] at hm
      rw [hT1_eq, Multiset.map_cons]
      exact hm
    have hla_lb : lb2 ≤ la2 := by
      obtain ⟨p, hp, hpeq⟩ := Multiset.mem_map.mp hmem_lb2
      rw [← hpeq]
      exact hT1_dom p hp
    have hRsnd : R.map Prod.snd = la2 ::ₘ lb2 ::ₘ S3.map Prod.snd := by
      calc R.map Prod.snd = pa.2 ::ₘ (pb ::ₘ S).map Prod.snd := by
            rw [hRfull, Multiset.map_cons]
        _ = la2 ::ₘ T1.map Prod.snd := hT1_snd.symm
        _ = la2 ::ₘ (pb2.2 ::ₘ S2.map Prod.snd) := by rw [hT1_eq, Multiset.map_cons]
        _ = la2 ::ₘ lb2 ::ₘ S3.map Prod.snd := by rw [← hS3_snd]
    rw [hRsnd] at hk
    have hlb2_pos : 1 ≤ lb2 := by
      by_contra hcon
      push_neg at hcon
      have hz : lb2 = 0 := by omega
      rw [hz] at hk
      exact kraft_zero_absurd la2 _ hk
    have hdom3 : ∀ x ∈ S3.map Prod.snd, x ≤ lb2 := by
      intro x hx
      obtain ⟨p, hp, rfl⟩ := Multiset.mem_map.mp hx
      exact hS3_dom p hp
    have hk2 := kraft_cap la2 lb2 (S3.map Prod.snd) hla_lb hdom3 hk
    obtain ⟨m1, rfl⟩ : ∃ m1, lb2 = m1 + 1 := ⟨lb2 - 1, by omega⟩
    have hR2_fst : ((a.freq + b.freq, m1) ::ₘ S3).map Prod.fst =
        (Node.mk 0 (a.freq + b.freq) a b ::ₘ F0).map Node.freq := by
      rw [Multiset.map_cons, Multiset.map_cons]
      rw [hS3_fst, herase_b2, herase_b]
      rfl
    have hR2_kraft : kraftSum (((a.freq + b.freq, m1) ::ₘ S3).map Prod.snd) ≤ 1 := by
      rw [Multiset.map_cons]
      have heq : kraftSum ((m1 : Nat) ::ₘ S3.map Prod.snd) =
          kraftSum ((m1 + 1) ::ₘ (m1 + 1) ::ₘ S3.map Prod.snd) := by
        rw [kraftSum, kraftSum, Multiset.map_cons, Multiset.sum_cons, Multiset.map_cons,
          Multiset.sum_cons, Multiset.map_cons, Multiset.sum_cons]
        rw [← add_assoc]
        congr 1
        rw [pow_succ]
        ring
      rw [heq]
      exact hk2
    have hIH := IH ((a.freq + b.freq, m1) ::ₘ S3) hR2_fst hR2_kraft
    rw [hRfull]
    simp only [Multiset.map_cons, Multiset.sum_cons] at hIH hT1_cost ⊢
    have hcost_node : cost (Node.mk 0 (a.freq + b.freq) a b) =
        cost a + cost b + a.freq + b.freq := rfl
    rw [hcost_node] at hIH
    rw [hfa, hfb]
    have hT1sum : (T1.map (fun p => p.1 * p.2)).sum =
        pb2.1 * pb2.2 + (S2.map (fun p => p.1 * p.2)).sum := by
      rw [hT1_eq, Multiset.map_cons, Multiset.sum_cons]
    rw [hT1sum, hfb2, hfb] at hT1_cost
    have hsplit_ab : (a.freq + b.freq) * (m1 + 1) =
        a.freq * (m1 + 1) + b.freq * (m1 + 1) := add_mul _ _ _
    have hm1 : (a.freq + b.freq) * m1 + (a.freq + b.freq) = (a.freq + b.freq) * (m1 + 1) := by
      ring
    have hmono : a.freq * (m1 + 1) ≤ a.freq * la2 := Nat.mul_le_mul_left _ hla_lb
    omega

theorem sum_map_add {A : Type} (l : List A) (f g : A → Nat) :
    (l.map (fun x => f x + g x)).sum = (l.map f).sum + (l.map g).sum := by
  induction l with
  | nil => rfl
  | cons x xs ih =>
    simp only [List.map_cons, List.sum_cons, ih]
    ring

theorem leafList_node (c : Sym) (f : Nat) (l r : Node)
    (hleaf : (l == Node.nil && r == Node.nil) = false) :
    leafList (Node.mk c f l r) = leafList l ++ leafList r := by
  rw [leafList, pathsF, if_neg (by simp [hleaf])]
  simp only [leafList, List.map_append, List.map_map]
  rfl

theorem freq_eq_leaf_sum (t : Node) :
    strictBinary t = true → consistent t = true → t ≠ Node.nil →
      t.freq = ((leafList t).map Prod.snd).sum := by
  induction t with
  | nil => intro _ _ hcon; exact absurd rfl hcon
  | mk c f l r ihl ihr =>
    intro hsb hc _
    cases hleaf : (l == Node.nil && r == Node.nil) with
    | true =>
      rw [leafList, pathsF, if_pos hleaf]
      simp
    | false =>
      rw [strictBinary, hleaf] at hsb
      simp only [Bool.false_or, Bool.and_eq_true, Bool.not_eq_true',
        beq_eq_false_iff_ne] at hsb
      obtain ⟨⟨⟨hl, hr⟩, hsbl⟩, hsbr⟩ := hsb
      rw [consistent, if_neg (by simp [hleaf])] at hc
      simp only [Bool.and_eq_true, beq_iff_eq] at hc
      obtain ⟨⟨hcf, hcl⟩, hcr⟩ := hc
      rw [leafList_node c f l r hleaf, List.map_append, List.sum_append]
      rw [Node.freq_mk, hcf, ihl hsbl hcl hl, ihr hsbr hcr hr]

theorem cost_eq_pathsF (t : Node) :
    strictBinary t = true → consistent t = true →
      cost t = ((pathsF t).map (fun e => e.1.2 * e.2.length)).sum := by
  induction t with
  | nil => intro _ _; rfl
  | mk c f l r ihl ihr =>
    intro hsb hc
    cases hleaf : (l == Node.nil && r == Node.nil) with
    | true =>
      simp only [Bool.and_eq_true, beq_iff_eq] at hleaf
      obtain ⟨rfl, rfl⟩ := hleaf
      simp [pathsF, cost, Node.freq]
    | false =>
      have hsb2 := hsb
      rw [strictBinary, hleaf] at hsb2
      simp only [Bool.false_or, Bool.and_eq_true, Bool.not_eq_true',
        beq_eq_false_iff_ne] at hsb2
      obtain ⟨⟨⟨hl, hr⟩, hsbl⟩, hsbr⟩ := hsb2
      have hc2 := hc
      rw [consistent, if_neg (by simp [hleaf])] at hc2
      simp only [Bool.and_eq_true, beq_iff_eq] at hc2
      obtain ⟨⟨hcf, hcl⟩, hcr⟩ := hc2
      rw [pathsF, if_neg (by simp [hleaf])]
      rw [List.map_append, List.sum_append, List.map_map, List.map_map]
      have h0 : ((fun e : (Sym × Nat) × List Char => e.1.2 * e.2.length) ∘
          fun e : (Sym × Nat) × List Char => (e.1, '0' :: e.2)) =
          fun e : (Sym × Nat) × List Char => e.1.2 * e.2.length + e.1.2 := by
        funext e
        simp [List.length_cons]
        ring
      have h1 : ((fun e : (Sym × Nat) × List Char => e.1.2 * e.2.length) ∘
          fun e : (Sym × Nat) × List Char => (e.1, '1' :: e.2)) =
          fun e : (Sym × Nat) × List Char => e.1.2 * e.2.length + e.1.2 := by
        funext e
        simp [List.length_cons]
        ring
      rw [h0, h1, sum_map_add, sum_map_add]
      have hwl : ((pathsF l).map (fun e => e.1.2)).sum = l.freq := by
        rw [freq_eq_leaf_sum l hsbl hcl hl, leafList, List.map_map]
        rfl
      have hwr : ((pathsF r).map (fun e => e.1.2)).sum = r.freq := by
        rw [freq_eq_leaf_sum r hsbr hcr hr, leafList, List.map_map]
        rfl
      rw [hwl, hwr, cost, ← ihl hsbl hcl, ← ihr hsbr hcr]
      ring

theorem sum_map_perm {A : Type} (l1 l2 : List A) (g : A → Nat)
    (h : (↑l1 : Multiset A) = ↑l2) : (l1.map g).sum = (l2.map g).sum := by
  have h2 := congrArg (fun M => (Multiset.map g M).sum) h
  simpa [Multiset.map_coe, Multiset.sum_coe] using h2

theorem codes_keys_nodup (st : HuffmanTree) (text : List Sym) (h : text ≠ [])
    (hd : 2 ≤ (calculateFrequencies text).length) :
    (((buildTree st text).1.huffmanCodes_).map Prod.fst).Nodup := by
  obtain ⟨_, _, hcodes⟩ := buildTree_shape st text h hd
  rw [hcodes, List.map_map]
  have hfn : (Prod.fst ∘ fun e : (Sym × Nat) × List Char => (e.1.1, e.2)) =
      Prod.fst ∘ Prod.fst := rfl
  rw [hfn, ← List.map_map, ← leafList]
  have hperm : (↑((leafList (buildTree st text).1.root_).map Prod.fst) :
      Multiset Sym) = ↑((calculateFrequencies text).map Prod.fst) := by
    rw [← Multiset.map_coe, ← Multiset.map_coe, leafList_buildTree st text h hd]
  rw [← Multiset.coe_nodup, hperm, Multiset.coe_nodup]
  exact calc_keys_nodup text

theorem weightedLength_eq_cost (st : HuffmanTree) (text : List Sym) (h : text ≠ [])
    (hd : 2 ≤ (calculateFrequencies text).length) :
    weightedLength (buildTree st text).1 = cost (buildTree st text).1.root_ := by
  obtain ⟨hsb, _, hcodes⟩ := buildTree_shape st text h hd
  have hcons : consistent (buildTree st text).1.root_ = true := by
    apply huff_consistent _ _ (buildTree_huff st text h hd)
    intro s hs
    obtain ⟨p, _, rfl⟩ := pq_members text s hs
    simp [consistent]
  have hperm := leafList_buildTree st text h hd
  rw [weightedLength, buildTree_fst_frequencies st text h]
  rw [← sum_map_perm (leafList (buildTree st text).1.root_)
    (calculateFrequencies text) _ hperm]
  rw [leafList, List.map_map]
  have hnodup := codes_keys_nodup st text h hd
  have hpt : ∀ e ∈ pathsF (buildTree st text).1.root_,
      mapLookup (buildTree st text).1.huffmanCodes_ e.1.1 = some e.2 := by
    intro e he
    apply mapLookup_of_mem_nodup _ _ _ hnodup
    rw [hcodes]
    exact List.mem_map.mpr ⟨e, he, rfl⟩
  have hmc : (pathsF (buildTree st text).1.root_).map
      ((fun p : Sym × Nat =>
        p.2 * ((mapLookup (buildTree st text).1.huffmanCodes_ p.1).getD []).length) ∘
        Prod.fst) =
      (pathsF (buildTree st text).1.root_).map (fun e => e.1.2 * e.2.length) := by
    apply List.map_congr_left
    intro e he
    simp [Function.comp, hpt e he]
  rw [hmc, ← cost_eq_pathsF _ hsb hcons]

/-- C3, amended: for every build over at least two distinct symbols, the
stored code lengths are optimal: the sum over distinct symbols of frequency
times stored code length is minimal among all prefix-free binary codeword
assignments for the same frequency table.  (For exactly one distinct symbol
the stored one-bit code is beaten by the empty codeword, which is
vacuously prefix-free on a one-symbol alphabet, as the counterexample
shows.) -/
theorem claim_c3_optimal_code_lengths (st : HuffmanTree) (text : List Sym)
    (h : text ≠ []) (hd : 2 ≤ (buildTree st text).1.frequencies_.length)
    (cw : Sym → List Bool)
    (hpf : PrefixFreeOn ((buildTree st text).1.frequencies_.map Prod.fst) cw) :
    weightedLength (buildTree st text).1 ≤ weightedLengthCW (buildTree st text).1 cw := by
  rw [buildTree_fst_frequencies st text h] at hd hpf
  rw [weightedLength_eq_cost st text h hd]
  have hhuff := buildTree_huff st text h hd
  have hRfst : ((calculateFrequencies text).map
        (fun p => (p.2, (cw p.1).length)) : Multiset (Nat × Nat)).map Prod.fst =
      (↑(pqList (calculateFrequencies text)) : Multiset Node).map Node.freq := by
    rw [pqList_coe, Multiset.map_coe, Multiset.map_coe, List.map_map, List.map_map]
    rfl
  have hkeys_nodup := calc_keys_nodup text
  have hpw : (((calculateFrequencies text).map Prod.fst).map cw).Pairwise
      (fun u v => ¬ u <+: v ∧ ¬ v <+: u) := by
    rw [List.pairwise_map]
    apply List.Pairwise.imp_of_mem ?_ hkeys_nodup
    intro a b ha hb hne
    exact ⟨hpf a ha b hb hne, hpf b hb a ha (Ne.symm hne)⟩
  have hkraft : kraftSum (((calculateFrequencies text).map
      (fun p => (p.2, (cw p.1).length)) : Multiset (Nat × Nat)).map Prod.snd) ≤ 1 := by
    have hkr := kraft_of_pf_list (((calculateFrequencies text).map Prod.fst).map cw) hpw
    rw [List.map_map, List.map_map] at hkr
    rw [Multiset.map_coe, List.map_map]
    exact hkr
  have hopt := huff_opt _ _ hhuff _ hRfst hkraft
  have hzero : ((↑(pqList (calculateFrequencies text)) : Multiset Node).map cost).sum = 0 := by
    rw [pqList_coe, Multiset.map_coe, List.map_map, Multiset.sum_coe]
    have hfn : (cost ∘ fun p : Sym × Nat => Node.mk p.1 p.2 Node.nil Node.nil) =
        fun _ => 0 := by
      funext p
      rfl
    rw [hfn]
    simp
  have hcw : (((calculateFrequencies text).map
      (fun p => (p.2, (cw p.1).length)) : Multiset (Nat × Nat)).map
        (fun p => p.1 * p.2)).sum = weightedLengthCW (buildTree st text).1 cw := by
    rw [Multiset.map_coe, Multiset.sum_coe, List.map_map]
    rw [weightedLengthCW, buildTree_fst_frequencies st text h]
    rfl
  rw [hzero, hcw] at hopt
  simpa using hopt

theorem claim_c3_witness :
    weightedLength (buildTree HuffmanTree.unbuilt [97, 98]).1 ≤
      weightedLengthCW (buildTree HuffmanTree.unbuilt [97, 98]).1
        (fun s => if s = 97 then [false] else [true]) :=
  claim_c3_optimal_code_lengths HuffmanTree.unbuilt [97, 98] (by decide) (by decide)
    (fun s => if s = 97 then [false] else [true])
    (by
      intro a ha b hb hne
      have hk : (buildTree HuffmanTree.unbuilt [97, 98]).1.frequencies_.map Prod.fst =
          [97, 98] := by decide
      rw [hk] at ha hb
      rcases List.mem_cons.mp ha with rfl | ha2
      · rcases List.mem_cons.mp hb with rfl | hb2
        · exact absurd rfl hne
        · have hb3 : b = 98 := by simpa using hb2
          subst hb3
          simp only [if_pos rfl, if_neg (by decide : ¬ (98 : Sym) = 97)]
          decide
      · have ha3 : a = 98 := by simpa using ha2
        subst ha3
        rcases List.mem_cons.mp hb with rfl | hb2
        · simp only [if_pos rfl, if_neg (by decide : ¬ (98 : Sym) = 97)]
          decide
        · have hb3 : b = 98 := by simpa using hb2
          subst hb3
          exact absurd rfl hne)

theorem claim_c3_counterexample :
    PrefixFreeOn ((buildTree HuffmanTree.unbuilt [97, 97]).1.frequencies_.map Prod.fst)
      (fun _ => []) ∧
    weightedLengthCW (buildTree HuffmanTree.unbuilt [97, 97]).1 (fun _ => []) <
      weightedLength (buildTree HuffmanTree.unbuilt [97, 97]).1 := by
  constructor
  · intro a ha b hb hne
    have hk : (buildTree HuffmanTree.unbuilt [97, 97]).1.frequencies_.map Prod.fst =
        [97] := by decide
    rw [hk] at ha hb
    have ha2 : a = 97 := by simpa using ha
    have hb2 : b = 97 := by simpa using hb
    rw [ha2, hb2] at hne
    exact absurd rfl hne
  · decide

end HuffmanSpec
